import Mathlib

/-!
Verification of the fracnetics GNP core (Node / Network / Population)
against its specification.  The C++ sources under `src/include` are
shallowly embedded: machine floats and doubles become `ℚ` (exact
arithmetic), `std::vector` becomes `List`, and every stochastic draw
becomes an explicit oracle argument (a value, list or function recording
what the PRNG produced), so that each theorem quantifies over all
possible random outcomes.
-/

namespace Fracnetics

/-! ## Fractal.hpp -/

/-- Embedding of `fractalLengths(depth, parameter)`: starting from `[1]`,
`depth` times replace the list `L` by the cross product `[Lᵢ · rⱼ]`. -/
def fractalLengths (depth : ℕ) (parameter : List ℚ) : List ℚ :=
  match depth with
  | 0 => [1]
  | d + 1 =>
      (fractalLengths d parameter).flatMap (fun len => parameter.map (fun para => len * para))

/-- Adjacent differences `l[i+1] - l[i]`; the in-place loop of
`sortAndDistance` followed by `pop_back`. -/
def adjacentDiffs : List ℚ → List ℚ
  | x :: y :: rest => (y - x) :: adjacentDiffs (y :: rest)
  | _ => []

/-- Embedding of `sortAndDistance(value)`: sort ascending, then return the
consecutive differences (one element shorter than the input). -/
def sortAndDistance (value : List ℚ) : List ℚ :=
  adjacentDiffs (value.insertionSort (· ≤ ·))

/-- Embedding of `randomParameterCuts(N, generator)`: `[0, u₁, …, u_N, 1]`,
where `draws` records the `N` uniform draws of the PRNG. -/
def randomParameterCuts (draws : List ℚ) : List ℚ :=
  0 :: (draws ++ [1])

/-- Inner loop of `random_k_d_combination`: collect `(k, d)` for `d = start,
start+1, …` while `k^d ≤ N`.  `fuel` bounds the iteration count; `N + 1`
is always enough (see `kdInner_fuel_irrelevant`-style arguments below). -/
def kdInner (k N : ℕ) : ℕ → ℕ → List (ℕ × ℕ)
  | 0, _ => []
  | fuel + 1, d => if k ^ d ≤ N then (k, d) :: kdInner k N fuel (d + 1) else []

/-- Outer loop of `random_k_d_combination`: `k = 2, 3, …` while `k ≤ N`. -/
def kdOuter (N start : ℕ) : ℕ → ℕ → List (ℕ × ℕ)
  | 0, _ => []
  | fuel + 1, k =>
      if k ≤ N then kdInner k N (N + 1) start ++ kdOuter N start fuel (k + 1) else []

/-- The candidate list built by `random_k_d_combination(N)`: all `(k, d)`
with `k ≥ 2`, `k^d ≤ N` and `d ≥ start`, where `start = 1` for `N ≤ 3`
and `start = 2` otherwise. -/
def kdCombinations (N : ℕ) : List (ℕ × ℕ) :=
  kdOuter N (if N ≤ 3 then 1 else 2) (N + 1) 2

/-- Embedding of `random_k_d_combination(N, generator)`: the PRNG picks a
uniform index `i` into the candidate list. -/
def random_k_d_combination (N i : ℕ) : ℕ × ℕ :=
  (kdCombinations N).getD i (0, 0)

lemma map_mul_sum (a : ℚ) (r : List ℚ) :
    (r.map (fun para => a * para)).sum = a * r.sum := by
  induction r with
  | nil => simp
  | cons x t ih => simp [ih, mul_add]

lemma fractalStep_sum (l r : List ℚ) :
    (l.flatMap (fun len => r.map (fun para => len * para))).sum = l.sum * r.sum := by
  induction l with
  | nil => simp
  | cons x t ih => simp [List.flatMap_cons, ih, map_mul_sum, add_mul]

lemma fractalStep_length (l r : List ℚ) :
    (l.flatMap (fun len => r.map (fun para => len * para))).length
      = l.length * r.length := by
  induction l with
  | nil => simp
  | cons x t ih => simp [List.flatMap_cons, ih, Nat.succ_mul, Nat.add_comm]

lemma fractalLengths_length (d : ℕ) (r : List ℚ) :
    (fractalLengths d r).length = r.length ^ d := by
  induction d with
  | zero => simp [fractalLengths]
  | succ n ih =>
      show ((fractalLengths n r).flatMap fun len => r.map fun para => len * para).length
          = r.length ^ (n + 1)
      rw [fractalStep_length, ih, pow_succ]

lemma fractalLengths_sum (d : ℕ) (r : List ℚ) :
    (fractalLengths d r).sum = r.sum ^ d := by
  induction d with
  | zero => simp [fractalLengths]
  | succ n ih => simp [fractalLengths, fractalStep_sum, ih, pow_succ]

lemma adjacentDiffs_length : ∀ l : List ℚ, (adjacentDiffs l).length = l.length - 1
  | [] => rfl
  | [_] => rfl
  | _ :: y :: rest => by
      simp [adjacentDiffs, adjacentDiffs_length (y :: rest)]

lemma adjacentDiffs_sum (x : ℚ) : ∀ l : List ℚ, (adjacentDiffs (x :: l)).sum = l.getLastD x - x
  | [] => by simp [adjacentDiffs]
  | y :: t => by
      show ((y - x) :: adjacentDiffs (y :: t)).sum = (y :: t).getLastD x - x
      rw [List.sum_cons, adjacentDiffs_sum y t, List.getLastD_cons]
      ring

lemma sorted_headD_le {l : List ℚ} (h : l.Sorted (· ≤ ·)) {x : ℚ} (hx : x ∈ l) :
    l.headD 0 ≤ x := by
  cases l with
  | nil => cases hx
  | cons a t =>
      rcases List.mem_cons.mp hx with rfl | hx
      · simp
      · simpa using (List.sorted_cons.mp h).1 _ hx

lemma le_sorted_getLastD {l : List ℚ} (h : l.Sorted (· ≤ ·)) {x : ℚ} (hx : x ∈ l) :
    x ≤ l.getLastD 0 := by
  obtain ⟨i, hi, rfl⟩ := List.mem_iff_getElem.mp hx
  have hne : l ≠ [] := by rintro rfl; simp at hi
  have hlt : l.length - 1 < l.length := by
    cases l with
    | nil => exact absurd rfl hne
    | cons a t => simp
  have h1 : l.getLastD 0 = l[l.length - 1] := by
    rw [List.getLastD_eq_getLast?, List.getLast?_eq_getLast l hne, Option.getD_some,
      List.getLast_eq_getElem]
  rw [h1]
  rcases Nat.lt_or_ge i (l.length - 1) with hcase | hcase
  · exact List.pairwise_iff_getElem.mp h i (l.length - 1) hi hlt hcase
  · have : i = l.length - 1 := by omega
    subst this
    exact le_refl _

lemma sortAndDistance_cuts (draws : List ℚ) (hdr : ∀ x ∈ draws, 0 < x ∧ x < 1) :
    (sortAndDistance (randomParameterCuts draws)).length = draws.length + 1 ∧
    (sortAndDistance (randomParameterCuts draws)).sum = 1 := by
  have hsorted := List.sorted_insertionSort (· ≤ ·) (randomParameterCuts draws)
  have hmem : ∀ x : ℚ, x ∈ (randomParameterCuts draws).insertionSort (· ≤ ·) ↔
      x ∈ randomParameterCuts draws := fun x => List.mem_insertionSort (· ≤ ·)
  have hlen : ((randomParameterCuts draws).insertionSort (· ≤ ·)).length
      = draws.length + 2 := by
    rw [List.length_insertionSort]
    simp [randomParameterCuts]
  have hrange : ∀ x : ℚ, x ∈ (randomParameterCuts draws).insertionSort (· ≤ ·) →
      0 ≤ x ∧ x ≤ 1 := by
    intro x hx
    have hx2 := (hmem x).mp hx
    simp [randomParameterCuts] at hx2
    rcases hx2 with rfl | hx2 | rfl
    · norm_num
    · exact ⟨(hdr x hx2).1.le, (hdr x hx2).2.le⟩
    · norm_num
  have h0 : (0 : ℚ) ∈ (randomParameterCuts draws).insertionSort (· ≤ ·) :=
    (hmem 0).mpr (by simp [randomParameterCuts])
  have h1 : (1 : ℚ) ∈ (randomParameterCuts draws).insertionSort (· ≤ ·) :=
    (hmem 1).mpr (by simp [randomParameterCuts])
  rcases hs : (randomParameterCuts draws).insertionSort (· ≤ ·) with _ | ⟨a, t⟩
  · rw [hs] at hlen; simp at hlen
  · rw [hs] at hsorted hrange h0 h1 hlen
    have hhead : a = 0 := by
      have hle : a ≤ 0 := by
        have := sorted_headD_le hsorted h0
        simpa using this
      have hge : 0 ≤ a := (hrange a (List.mem_cons_self a t)).1
      linarith
    have hlast : t.getLastD a = 1 := by
      have hle : (1 : ℚ) ≤ (a :: t).getLastD 0 := le_sorted_getLastD hsorted h1
      have hge : (a :: t).getLastD 0 ≤ 1 := by
        have hmem2 : (a :: t).getLastD 0 ∈ a :: t := by
          cases t with
          | nil => simp
          | cons b u =>
              rw [List.getLastD_eq_getLast?, List.getLast?_eq_getLast _ (by simp),
                Option.getD_some]
              exact List.getLast_mem _
        exact (hrange _ hmem2).2
      have : (a :: t).getLastD 0 = 1 := le_antisymm hge hle
      rwa [List.getLastD_cons] at this
    constructor
    · rw [sortAndDistance, hs, adjacentDiffs_length]
      simp at hlen ⊢
      omega
    · rw [sortAndDistance, hs, adjacentDiffs_sum, hlast, hhead]
      norm_num

/-- C8: `fractalLengths(d, r)` has `|r|^d` entries summing to `(Σr)^d` in
exact arithmetic (so sum `1` when `r` sums to `1`); and for
`r = sortAndDistance(randomParameterCuts(M))` — which has `M + 1` entries
summing to `1` — the result has `(M+1)^d` entries summing to `1`. -/
theorem C8_fractalLengths (d : ℕ) (r : List ℚ) (_hr : r ≠ []) (M : ℕ) (draws : List ℚ)
    (hlen : draws.length = M) (hdr : ∀ x ∈ draws, 0 < x ∧ x < 1) :
    (fractalLengths d r).length = r.length ^ d ∧
    (fractalLengths d r).sum = r.sum ^ d ∧
    (r.sum = 1 → (fractalLengths d r).sum = 1) ∧
    (sortAndDistance (randomParameterCuts draws)).length = M + 1 ∧
    (sortAndDistance (randomParameterCuts draws)).sum = 1 ∧
    (fractalLengths d (sortAndDistance (randomParameterCuts draws))).length = (M + 1) ^ d ∧
    (fractalLengths d (sortAndDistance (randomParameterCuts draws))).sum = 1 := by
  obtain ⟨hc1, hc2⟩ := sortAndDistance_cuts draws hdr
  refine ⟨fractalLengths_length d r, fractalLengths_sum d r, ?_, ?_, ?_, ?_, ?_⟩
  · intro h; rw [fractalLengths_sum, h, one_pow]
  · rw [hc1, hlen]
  · exact hc2
  · rw [fractalLengths_length, hc1, hlen]
  · rw [fractalLengths_sum, hc2, one_pow]

/-- C8 witness: instantiation at depth `2`, rule `r = [1]`, `M = 1` cut
draw `[1/2]`. -/
theorem C8_fractalLengths_witness :
    ([(1 : ℚ)] ≠ []) ∧ (∀ x ∈ [(1 : ℚ)/2], 0 < x ∧ x < 1) ∧
    (fractalLengths 2 [(1 : ℚ)]).sum = ([(1 : ℚ)].sum) ^ 2 ∧
    (sortAndDistance (randomParameterCuts [(1 : ℚ)/2])).sum = 1 ∧
    (fractalLengths 2 (sortAndDistance (randomParameterCuts [(1 : ℚ)/2]))).length
      = (1 + 1) ^ 2 := by
  have h1 : ([(1 : ℚ)] : List ℚ) ≠ [] := by simp
  have h2 : ∀ x ∈ [(1 : ℚ)/2], 0 < x ∧ x < 1 := by norm_num
  obtain ⟨c1, c2, c3, c4, c5, c6, c7⟩ := C8_fractalLengths 2 [(1 : ℚ)] h1 1 [(1 : ℚ)/2] rfl h2
  exact ⟨h1, h2, c2, c5, c6⟩

lemma kdInner_mem {k N : ℕ} :
    ∀ fuel d p, p ∈ kdInner k N fuel d → p.1 = k ∧ d ≤ p.2 ∧ k ^ p.2 ≤ N := by
  intro fuel
  induction fuel with
  | zero => intro d p hp; cases hp
  | succ f ih =>
      intro d p hp
      by_cases hkd : k ^ d ≤ N
      · rw [kdInner, if_pos hkd] at hp
        rcases List.mem_cons.mp hp with rfl | hp
        · exact ⟨rfl, le_refl _, hkd⟩
        · obtain ⟨h1, h2, h3⟩ := ih (d + 1) p hp
          exact ⟨h1, by omega, h3⟩
      · rw [kdInner, if_neg hkd] at hp
        cases hp

lemma kdOuter_mem {N start : ℕ} :
    ∀ fuel k p, p ∈ kdOuter N start fuel k →
      k ≤ p.1 ∧ start ≤ p.2 ∧ p.1 ^ p.2 ≤ N := by
  intro fuel
  induction fuel with
  | zero => intro k p hp; cases hp
  | succ f ih =>
      intro k p hp
      by_cases hk : k ≤ N
      · rw [kdOuter, if_pos hk] at hp
        rcases List.mem_append.mp hp with hp | hp
        · obtain ⟨h1, h2, h3⟩ := kdInner_mem (N + 1) start p hp
          exact ⟨le_of_eq h1.symm, h2, h1 ▸ h3⟩
        · obtain ⟨h1, h2, h3⟩ := ih (k + 1) p hp
          exact ⟨by omega, h2, h3⟩
      · rw [kdOuter, if_neg hk] at hp
        cases hp

lemma kdCombinations_mem {N : ℕ} {p : ℕ × ℕ} (hp : p ∈ kdCombinations N) :
    2 ≤ p.1 ∧ p.1 ^ p.2 ≤ N ∧ 1 ≤ p.2 ∧ (3 < N → 2 ≤ p.2) := by
  obtain ⟨h1, h2, h3⟩ := kdOuter_mem (N + 1) 2 p hp
  refine ⟨h1, h3, ?_, ?_⟩
  · by_cases hN : N ≤ 3 <;> simp [hN] at h2 <;> omega
  · intro h4
    have : ¬ N ≤ 3 := by omega
    simpa [this] using h2

/-- C9: for every `N ≥ 2` and every PRNG outcome (an index `i` into the
candidate list), `randomKDCombination(N)` returns `(k, d)` with `k ≥ 2`,
`k^d ≤ N`, `d ≥ 1`, and `d ≥ 2` whenever `N > 3`; for `N = 8` the result
is `(2,2)` or `(2,3)`. -/
theorem C9_random_k_d_combination (N i : ℕ) (hN : 2 ≤ N)
    (hi : i < (kdCombinations N).length) :
    2 ≤ (random_k_d_combination N i).1 ∧
    (random_k_d_combination N i).1 ^ (random_k_d_combination N i).2 ≤ N ∧
    1 ≤ (random_k_d_combination N i).2 ∧
    (3 < N → 2 ≤ (random_k_d_combination N i).2) ∧
    (N = 8 → random_k_d_combination N i = (2, 2) ∨ random_k_d_combination N i = (2, 3)) := by
  have hmem : random_k_d_combination N i ∈ kdCombinations N := by
    rw [random_k_d_combination, List.getD_eq_getElem?_getD, List.getElem?_eq_getElem hi]
    exact List.getElem_mem hi
  obtain ⟨h1, h2, h3, h4⟩ := kdCombinations_mem hmem
  refine ⟨h1, h2, h3, h4, ?_⟩
  rintro rfl
  have h8 : kdCombinations 8 = [(2, 2), (2, 3)] := by decide
  rw [h8] at hmem
  rcases List.mem_cons.mp hmem with h | h
  · exact Or.inl h
  · exact Or.inr (List.mem_singleton.mp h)

/-- C9 witness: instantiation at `N = 8`, `i = 0`. -/
theorem C9_random_k_d_combination_witness :
    2 ≤ (random_k_d_combination 8 0).1 ∧
    (random_k_d_combination 8 0).1 ^ (random_k_d_combination 8 0).2 ≤ 8 ∧
    1 ≤ (random_k_d_combination 8 0).2 ∧
    (3 < 8 → 2 ≤ (random_k_d_combination 8 0).2) ∧
    (8 = 8 → random_k_d_combination 8 0 = (2, 2) ∨ random_k_d_combination 8 0 = (2, 3)) :=
  C9_random_k_d_combination 8 0 (by decide) (by decide)

/-! ## Node.hpp: judge -/

/-- Embedding of the binary-search loop of `Node::judge`.  `fuel` bounds
the number of iterations; the interval size at entry bounds the actual
iteration count, so the `judge` wrapper below passes `numEdges + 1` and
the `0`-fuel branch is never reached on the searched range. -/
def judgeSearch (b : List ℚ) (v : ℚ) : ℕ → ℤ → ℤ → ℤ
  | 0, _, _ => -1
  | fuel + 1, lo, hi =>
    if lo ≤ hi then
      let mid := lo + (hi - lo) / 2
      if b.getD mid.toNat 0 ≤ v ∧ v < b.getD (mid + 1).toNat 0 then mid
      else if v < b.getD mid.toNat 0 then judgeSearch b v fuel lo (mid - 1)
      else judgeSearch b v fuel (mid + 1) hi
    else -1

/-- Embedding of `Node::judge(v)` for a node with `numEdges` edges and
boundary vector `b`: clamp below the first and above the last boundary,
otherwise binary-search for the interval containing `v`. -/
def judge (b : List ℚ) (numEdges : ℕ) (v : ℚ) : ℤ :=
  if v ≤ b.getD 0 0 then 0
  else if b.getD (b.length - 1) 0 ≤ v then (numEdges : ℤ) - 1
  else judgeSearch b v (numEdges + 1) 0 ((numEdges : ℤ) - 1)

lemma pairwise_getD_lt {b : List ℚ} (hb : b.Pairwise (· < ·)) {i j : ℕ}
    (hij : i < j) (hj : j < b.length) : b.getD i 0 < b.getD j 0 := by
  have hi : i < b.length := by omega
  rw [List.getD_eq_getElem?_getD, List.getElem?_eq_getElem hi,
    List.getD_eq_getElem?_getD, List.getElem?_eq_getElem hj]
  exact List.pairwise_iff_getElem.mp hb i j hi hj hij

lemma judgeSearch_correct (b : List ℚ) (v : ℚ) (m : ℕ)
    (hlen : b.length = m + 1) :
    ∀ fuel : ℕ, ∀ lo hi : ℤ, 0 ≤ lo → lo ≤ hi → hi ≤ (m : ℤ) - 1 →
      b.getD lo.toNat 0 ≤ v → v < b.getD (hi + 1).toNat 0 →
      (hi + 1 - lo).toNat ≤ fuel →
      lo ≤ judgeSearch b v fuel lo hi ∧ judgeSearch b v fuel lo hi ≤ hi ∧
      b.getD (judgeSearch b v fuel lo hi).toNat 0 ≤ v ∧
      v < b.getD ((judgeSearch b v fuel lo hi).toNat + 1) 0 := by
  intro fuel
  induction fuel with
  | zero =>
      intro lo hi h0 hlohi hhi hblo hbhi hfuel
      omega
  | succ f ih =>
      intro lo hi h0 hlohi hhi hblo hbhi hfuel
      have hmid1 : lo ≤ lo + (hi - lo) / 2 := by omega
      have hmid2 : lo + (hi - lo) / 2 ≤ hi := by omega
      rw [judgeSearch, if_pos hlohi]
      set mid := lo + (hi - lo) / 2 with hmid
      by_cases hhit : b.getD mid.toNat 0 ≤ v ∧ v < b.getD (mid + 1).toNat 0
      · rw [if_pos hhit]
        have : (mid + 1).toNat = mid.toNat + 1 := by omega
        exact ⟨hmid1, hmid2, hhit.1, this ▸ hhit.2⟩
      · rw [if_neg hhit]
        by_cases hlt : v < b.getD mid.toNat 0
        · rw [if_pos hlt]
          have hne : lo ≠ mid := by
            intro heq
            rw [← heq] at hlt
            exact absurd hblo (not_le.mpr hlt)
          have hlo_lt : lo < mid := by omega
          have hrec := ih lo (mid - 1) h0 (by omega) (by omega) hblo
            (by
              have : mid - 1 + 1 = mid := by ring
              rw [this]; exact hlt)
            (by omega)
          exact ⟨hrec.1, by omega, hrec.2.2.1, hrec.2.2.2⟩
        · rw [if_neg hlt]
          have hgemid : b.getD mid.toNat 0 ≤ v := not_lt.mp hlt
          have hgemid1 : b.getD (mid + 1).toNat 0 ≤ v := by
            by_contra hcon
            exact hhit ⟨hgemid, not_le.mp hcon⟩
          have hne : mid ≠ hi := by
            intro heq
            rw [heq] at hgemid1
            exact absurd hbhi (not_lt.mpr hgemid1)
          have hmid_lt : mid < hi := by omega
          have hrec := ih (mid + 1) hi (by omega) (by omega) hhi hgemid1 hbhi (by omega)
          exact ⟨by omega, hrec.2.1, hrec.2.2.1, hrec.2.2.2⟩

lemma judge_spec (b : List ℚ) (m : ℕ) (v : ℚ) (hb : b.Pairwise (· < ·))
    (hlen : b.length = m + 1) (hm : 1 ≤ m) :
    (0 ≤ judge b m v ∧ judge b m v < (m : ℤ)) ∧
    (v ≤ b.getD 0 0 → judge b m v = 0) ∧
    (b.getD m 0 ≤ v → judge b m v = (m : ℤ) - 1) ∧
    (b.getD 0 0 < v → v < b.getD m 0 →
      b.getD (judge b m v).toNat 0 ≤ v ∧ v < b.getD ((judge b m v).toNat + 1) 0 ∧
      ∀ j : ℕ, j < m → b.getD j 0 ≤ v → v < b.getD (j + 1) 0 → (j : ℤ) = judge b m v) := by
  have hlast : b.length - 1 = m := by omega
  by_cases h1 : v ≤ b.getD 0 0
  · have hj : judge b m v = 0 := by rw [judge, if_pos h1]
    refine ⟨⟨by omega, by omega⟩, fun _ => hj, ?_, ?_⟩
    · intro h2
      have hlt : b.getD 0 0 < b.getD m 0 :=
        pairwise_getD_lt hb (by omega) (by omega)
      exact absurd (le_trans h2 h1) (not_le.mpr hlt)
    · intro h2 _
      exact absurd h2 (not_lt.mpr h1)
  · by_cases h2 : b.getD (b.length - 1) 0 ≤ v
    · have hj : judge b m v = (m : ℤ) - 1 := by rw [judge, if_neg h1, if_pos h2]
      rw [hlast] at h2
      refine ⟨⟨by omega, by omega⟩, fun h => absurd h h1, fun _ => hj, ?_⟩
      intro _ h3
      exact absurd h2 (not_le.mpr h3)
    · have hj : judge b m v = judgeSearch b v (m + 1) 0 ((m : ℤ) - 1) := by
        rw [judge, if_neg h1, if_neg h2]
      rw [hlast] at h2
      have hblo : b.getD (0 : ℤ).toNat 0 ≤ v := le_of_lt (not_le.mp h1)
      have hbhi : v < b.getD (((m : ℤ) - 1) + 1).toNat 0 := by
        have : (((m : ℤ) - 1) + 1).toNat = m := by omega
        rw [this]
        exact not_le.mp h2
      obtain ⟨hr1, hr2, hr3, hr4⟩ := judgeSearch_correct b v m hlen (m + 1) 0 ((m : ℤ) - 1)
        (le_refl 0) (by omega) (by omega) hblo hbhi (by omega)
      rw [← hj] at hr1 hr2 hr3 hr4
      refine ⟨⟨hr1, by omega⟩, fun h => absurd h h1, ?_, ?_⟩
      · intro h3
        exact absurd h3 (not_le.mpr (not_le.mp h2))
      · intro _ _
        refine ⟨hr3, hr4, ?_⟩
        intro j hjm hbj hbj1
        by_contra hne
        have hrnat : (judge b m v).toNat < m := by omega
        rcases Nat.lt_or_ge j (judge b m v).toNat with hcase | hcase
        · have hle : b.getD (j + 1) 0 ≤ b.getD (judge b m v).toNat 0 := by
            rcases Nat.eq_or_lt_of_le (Nat.succ_le_of_lt hcase) with heq | hlt2
            · rw [show j + 1 = (judge b m v).toNat by omega]
            · exact le_of_lt (pairwise_getD_lt hb hlt2 (by omega))
          exact absurd (lt_of_lt_of_le hbj1 (le_trans hle hr3)) (lt_irrefl v)
        · have hcase2 : (judge b m v).toNat < j := by omega
          have hle : b.getD ((judge b m v).toNat + 1) 0 ≤ b.getD j 0 := by
            rcases Nat.eq_or_lt_of_le (Nat.succ_le_of_lt hcase2) with heq | hlt2
            · rw [show (judge b m v).toNat + 1 = j by omega]
            · exact le_of_lt (pairwise_getD_lt hb hlt2 (by omega))
          exact absurd (lt_of_lt_of_le hr4 (le_trans hle hbj)) (lt_irrefl v)

/-- The spec scenario boundaries `[0, 0.25, 0.5, 0.75, 1]`. -/
def scenarioBoundaries : List ℚ := [0, 1/4, 1/2, 3/4, 1]

lemma scenarioBoundaries_pairwise : scenarioBoundaries.Pairwise (· < ·) := by
  rw [scenarioBoundaries]
  norm_num

/-- C2: for strictly increasing boundaries `b[0..m]` and `m ≥ 1` edges,
`judge(v)` returns `0` for `v ≤ b[0]`, `m-1` for `v ≥ b[m]`, otherwise the
unique `i` with `b[i] ≤ v < b[i+1]`; the result always lies in `[0, m)`
(never `-1`).  With boundaries `[0, 1/4, 1/2, 3/4, 1]` and 4 edges the
inputs `-1, 0.1, 0.25, 0.6, 0.9, 2` yield `0, 0, 1, 2, 3, 3`. -/
theorem C2_judge (b : List ℚ) (m : ℕ) (v : ℚ) (hb : b.Pairwise (· < ·))
    (hlen : b.length = m + 1) (hm : 1 ≤ m) :
    (0 ≤ judge b m v ∧ judge b m v < (m : ℤ)) ∧
    (v ≤ b.getD 0 0 → judge b m v = 0) ∧
    (b.getD m 0 ≤ v → judge b m v = (m : ℤ) - 1) ∧
    (b.getD 0 0 < v → v < b.getD m 0 →
      b.getD (judge b m v).toNat 0 ≤ v ∧ v < b.getD ((judge b m v).toNat + 1) 0 ∧
      ∀ j : ℕ, j < m → b.getD j 0 ≤ v → v < b.getD (j + 1) 0 → (j : ℤ) = judge b m v) ∧
    judge scenarioBoundaries 4 (-1) = 0 ∧
    judge scenarioBoundaries 4 (1/10) = 0 ∧
    judge scenarioBoundaries 4 (1/4) = 1 ∧
    judge scenarioBoundaries 4 (6/10) = 2 ∧
    judge scenarioBoundaries 4 (9/10) = 3 ∧
    judge scenarioBoundaries 4 2 = 3 := by
  obtain ⟨g1, g2, g3, g4⟩ := judge_spec b m v hb hlen hm
  have hsc := fun w : ℚ =>
    judge_spec scenarioBoundaries 4 w scenarioBoundaries_pairwise rfl (by norm_num)
  have e0 : scenarioBoundaries.getD 0 0 = 0 := rfl
  have e1 : scenarioBoundaries.getD 1 0 = 1/4 := rfl
  have e2 : scenarioBoundaries.getD 2 0 = 1/2 := rfl
  have e3 : scenarioBoundaries.getD 3 0 = 3/4 := rfl
  have e4 : scenarioBoundaries.getD 4 0 = 1 := rfl
  refine ⟨g1, g2, g3, g4, ?_, ?_, ?_, ?_, ?_, ?_⟩
  · exact (hsc (-1)).2.1 (by rw [e0]; norm_num)
  · have h := ((hsc (1/10)).2.2.2 (by rw [e0]; norm_num) (by rw [e4]; norm_num)).2.2
      0 (by norm_num) (by rw [e0]; norm_num) (by rw [show (0:ℕ)+1 = 1 from rfl, e1]; norm_num)
    exact h.symm
  · have h := ((hsc (1/4)).2.2.2 (by rw [e0]; norm_num) (by rw [e4]; norm_num)).2.2
      1 (by norm_num) (by rw [e1]) (by rw [show (1:ℕ)+1 = 2 from rfl, e2]; norm_num)
    exact h.symm
  · have h := ((hsc (6/10)).2.2.2 (by rw [e0]; norm_num) (by rw [e4]; norm_num)).2.2
      2 (by norm_num) (by rw [e2]; norm_num) (by rw [show (2:ℕ)+1 = 3 from rfl, e3]; norm_num)
    exact h.symm
  · have h := ((hsc (9/10)).2.2.2 (by rw [e0]; norm_num) (by rw [e4]; norm_num)).2.2
      3 (by norm_num) (by rw [e3]; norm_num) (by rw [show (3:ℕ)+1 = 4 from rfl, e4]; norm_num)
    exact h.symm
  · exact (hsc 2).2.2.1 (by rw [e4]; norm_num)

/-- C2 witness: the claim instantiated at boundaries `[0, 1/4, 1/2, 3/4, 1]`,
4 edges, input `6/10`. -/
theorem C2_judge_witness :
    (scenarioBoundaries.Pairwise (· < ·)) ∧
    (0 ≤ judge scenarioBoundaries 4 (6/10) ∧ judge scenarioBoundaries 4 (6/10) < 4) ∧
    judge scenarioBoundaries 4 (6/10) = 2 := by
  obtain ⟨hrange, _, _, _, hc⟩ := C2_judge scenarioBoundaries 4 (6/10)
    scenarioBoundaries_pairwise rfl (by norm_num)
  exact ⟨scenarioBoundaries_pairwise, hrange, hc.2.2.2.1⟩

/-! ## Node.hpp: boundary mutation -/

/-- Shared loop shape of the boundary-mutation operators: walk the inner
positions `i = 1 … size-2` keeping the (already updated) left neighbour
`prev`, and replace the current entry `x` by `step i prev x y` where `y`
is the (not yet visited) right neighbour.  The first and last entries are
never touched, exactly as in the C++ loops. -/
def innerMutate (step : ℕ → ℚ → ℚ → ℚ → ℚ) : ℕ → ℚ → List ℚ → List ℚ
  | _, _, [] => []
  | _, _, [x] => [x]
  | i, prev, x :: y :: rest =>
      let x2 := step i prev x y
      x2 :: innerMutate step (i + 1) x2 (y :: rest)

/-- Embedding of `Node::boundaryMutationUniform(p)`.  `dec i` records the
Bernoulli draw for inner boundary `i`, and `u i lo hi` the uniform draw
on `(lo, hi)` (`lo` is the current left neighbour `boundaries[i-1]`, `hi`
the right neighbour `boundaries[i+1]`); replacement is unconditional. -/
def boundaryMutationUniform (u : ℕ → ℚ → ℚ → ℚ) (dec : ℕ → Bool) :
    List ℚ → List ℚ
  | [] => []
  | x :: rest =>
      x :: innerMutate (fun i prev x y => if dec i then u i prev y else x) 1 x rest

/-- Embedding of `Node::boundaryMutationNormal(p, sigma)`.  `draw i mu s`
records the `Normal(mu, s)` sample for inner boundary `i` (the code uses
`s = sigma * mu`); the sample replaces `boundaries[i]` only when it lies
strictly between the two neighbours. -/
def boundaryMutationNormal (sigma : ℚ) (draw : ℕ → ℚ → ℚ → ℚ) (dec : ℕ → Bool) :
    List ℚ → List ℚ
  | [] => []
  | x :: rest =>
      x :: innerMutate
        (fun i prev x y =>
          let nb := draw i x (sigma * x)
          if dec i ∧ prev < nb ∧ nb < y then nb else x) 1 x rest

lemma innerMutate_spec (step : ℕ → ℚ → ℚ → ℚ → ℚ)
    (hstep : ∀ i prev x y, prev < x → x < y → prev < step i prev x y ∧ step i prev x y < y) :
    ∀ (l : List ℚ) (i : ℕ) (prev : ℚ), (prev :: l).Chain' (· < ·) →
      (prev :: innerMutate step i prev l).Chain' (· < ·) ∧
      (innerMutate step i prev l).length = l.length ∧
      (innerMutate step i prev l).getLast? = l.getLast? := by
  intro l
  induction l with
  | nil => intro i prev _; exact ⟨List.chain'_singleton prev, rfl, rfl⟩
  | cons x t ih =>
      intro i prev h
      cases t with
      | nil =>
          exact ⟨h, rfl, rfl⟩
      | cons y rest =>
          obtain ⟨hpx, h2⟩ := List.chain'_cons.mp h
          obtain ⟨hxy, h3⟩ := List.chain'_cons.mp h2
          obtain ⟨hs1, hs2⟩ := hstep i prev x y hpx hxy
          have hchain2 : (step i prev x y :: y :: rest).Chain' (· < ·) :=
            List.chain'_cons.mpr ⟨hs2, h3⟩
          obtain ⟨ih1, ih2, ih3⟩ := ih (i + 1) (step i prev x y) hchain2
          refine ⟨?_, ?_, ?_⟩
          · show (prev :: step i prev x y :: innerMutate step (i + 1) (step i prev x y)
              (y :: rest)).Chain' (· < ·)
            exact List.chain'_cons.mpr ⟨hs1, ih1⟩
          · show (step i prev x y :: innerMutate step (i + 1) (step i prev x y)
              (y :: rest)).length = (x :: y :: rest).length
            simp [ih2]
          · show (step i prev x y :: innerMutate step (i + 1) (step i prev x y)
              (y :: rest)).getLast? = (x :: y :: rest).getLast?
            obtain ⟨a, t2, hat⟩ :
                ∃ a t2, innerMutate step (i + 1) (step i prev x y) (y :: rest) = a :: t2 := by
              cases hI : innerMutate step (i + 1) (step i prev x y) (y :: rest) with
              | nil => rw [hI] at ih2; simp at ih2
              | cons a t2 => exact ⟨a, t2, rfl⟩
            rw [hat, List.getLast?_cons_cons]
            rw [hat] at ih3
            rw [ih3]
            simp

/-- C5: for a judgment node with strictly increasing boundaries, one call
to `boundaryMutationUniform(p)` (any Bernoulli outcomes, any uniform
draws inside the open neighbour intervals) or to
`boundaryMutationNormal(p, sigma)` (any sigma — covering the network- and
edge-size-dependent variants — and any normal draws) leaves the
boundaries strictly increasing with first and last entries unchanged. -/
theorem C5_boundaryMutation (b : List ℚ) (u draw : ℕ → ℚ → ℚ → ℚ)
    (decU decN : ℕ → Bool) (sigma : ℚ)
    (hb : b.Chain' (· < ·))
    (hu : ∀ i lo hi, lo < hi → lo < u i lo hi ∧ u i lo hi < hi) :
    (boundaryMutationUniform u decU b).Chain' (· < ·) ∧
    (boundaryMutationUniform u decU b).head? = b.head? ∧
    (boundaryMutationUniform u decU b).getLast? = b.getLast? ∧
    (boundaryMutationNormal sigma draw decN b).Chain' (· < ·) ∧
    (boundaryMutationNormal sigma draw decN b).head? = b.head? ∧
    (boundaryMutationNormal sigma draw decN b).getLast? = b.getLast? := by
  cases b with
  | nil => exact ⟨List.chain'_nil, rfl, rfl, List.chain'_nil, rfl, rfl⟩
  | cons x rest =>
      have hstepU : ∀ (i : ℕ) (prev c y : ℚ), prev < c → c < y →
          prev < (if decU i then u i prev y else c) ∧
          (if decU i then u i prev y else c) < y := by
        intro i prev c y hpx hxy
        by_cases hd : decU i
        · simpa [hd] using hu i prev y (lt_trans hpx hxy)
        · simpa [hd] using ⟨hpx, hxy⟩
      have hstepN : ∀ (i : ℕ) (prev c y : ℚ), prev < c → c < y →
          prev < (if decN i ∧ prev < draw i c (sigma * c) ∧ draw i c (sigma * c) < y
                  then draw i c (sigma * c) else c) ∧
          (if decN i ∧ prev < draw i c (sigma * c) ∧ draw i c (sigma * c) < y
                  then draw i c (sigma * c) else c) < y := by
        intro i prev c y hpx hxy
        by_cases hd : decN i ∧ prev < draw i c (sigma * c) ∧ draw i c (sigma * c) < y
        · simpa [hd] using ⟨hd.2.1, hd.2.2⟩
        · simpa [hd] using ⟨hpx, hxy⟩
      obtain ⟨u1, u2, u3⟩ :=
        innerMutate_spec (fun i prev c y => if decU i then u i prev y else c)
          (fun i prev c y hpx hxy => hstepU i prev c y hpx hxy) rest 1 x hb
      obtain ⟨n1, n2, n3⟩ :=
        innerMutate_spec
          (fun i prev c y =>
            let nb := draw i c (sigma * c)
            if decN i ∧ prev < nb ∧ nb < y then nb else c)
          (fun i prev c y hpx hxy => hstepN i prev c y hpx hxy) rest 1 x hb
      refine ⟨u1, rfl, ?_, n1, rfl, ?_⟩
      · show (x :: innerMutate (fun i prev c y => if decU i then u i prev y else c)
            1 x rest).getLast? = (x :: rest).getLast?
        cases hI : innerMutate (fun i prev c y => if decU i then u i prev y else c)
            1 x rest with
        | nil =>
            rw [hI] at u2
            cases rest with
            | nil => rfl
            | cons _ _ => simp at u2
        | cons a t2 =>
            rw [hI] at u3
            rw [List.getLast?_cons_cons, u3]
            cases rest with
            | nil => rw [hI] at u2; simp at u2
            | cons _ _ => simp
      · show (x :: innerMutate
            (fun i prev c y =>
              let nb := draw i c (sigma * c)
              if decN i ∧ prev < nb ∧ nb < y then nb else c)
            1 x rest).getLast? = (x :: rest).getLast?
        cases hI : innerMutate
            (fun i prev c y =>
              let nb := draw i c (sigma * c)
              if decN i ∧ prev < nb ∧ nb < y then nb else c)
            1 x rest with
        | nil =>
            rw [hI] at n2
            cases rest with
            | nil => rfl
            | cons _ _ => simp at n2
        | cons a t2 =>
            rw [hI] at n3
            rw [List.getLast?_cons_cons, n3]
            cases rest with
            | nil => rw [hI] at n2; simp at n2
            | cons _ _ => simp

/-- C5 witness: boundaries `[0, 1, 2, 3]`, mutation of every inner
boundary enabled, uniform draws at the midpoint of each neighbour
interval. -/
theorem C5_boundaryMutation_witness :
    ([(0 : ℚ), 1, 2, 3].Chain' (· < ·)) ∧
    (∀ (i : ℕ) (lo hi : ℚ), lo < hi → lo < (lo + hi) / 2 ∧ (lo + hi) / 2 < hi) ∧
    (boundaryMutationUniform (fun _ lo hi => (lo + hi) / 2) (fun _ => true)
      [(0 : ℚ), 1, 2, 3]).Chain' (· < ·) ∧
    (boundaryMutationNormal 1 (fun _ mu _ => mu + 10) (fun _ => true)
      [(0 : ℚ), 1, 2, 3]).Chain' (· < ·) ∧
    (boundaryMutationUniform (fun _ lo hi => (lo + hi) / 2) (fun _ => true)
      [(0 : ℚ), 1, 2, 3]).getLast? = some 3 := by
  have hb : ([(0 : ℚ), 1, 2, 3].Chain' (· < ·)) := by
    refine List.chain'_cons.mpr ⟨by norm_num, ?_⟩
    refine List.chain'_cons.mpr ⟨by norm_num, ?_⟩
    exact List.chain'_cons.mpr ⟨by norm_num, List.chain'_singleton 3⟩
  have hu : ∀ (i : ℕ) (lo hi : ℚ), lo < hi → lo < (lo + hi) / 2 ∧ (lo + hi) / 2 < hi := by
    intro i lo hi h
    constructor <;> linarith
  obtain ⟨c1, c2, c3, c4, c5, c6⟩ := C5_boundaryMutation [(0 : ℚ), 1, 2, 3]
    (fun _ lo hi => (lo + hi) / 2) (fun _ mu _ => mu + 10) (fun _ => true) (fun _ => true)
    1 hb (fun i lo hi h => hu i lo hi h)
  exact ⟨hb, hu, c1, c4, by rw [c3]; rfl⟩

/-! ## Node.hpp / Network.hpp: data model and traversal -/

/-- Node type tag: the C++ code uses the strings `"S"`, `"J"`, `"P"`. -/
inductive NType where
  | S : NType
  | J : NType
  | P : NType
deriving DecidableEq, Repr

/-- Embedding of `class Node` (the PRNG handle is externalised into the
oracle arguments of each operation). -/
structure GNode where
  id : ℕ
  ntype : NType
  f : ℕ
  edges : List ℕ
  boundaries : List ℚ
  productionRuleParameter : List ℚ
  k_d : ℕ × ℕ
  used : Bool
deriving DecidableEq, Repr

/-- Out-of-range access default (C++ such accesses are UB; all theorems
carry validity hypotheses making the default irrelevant). -/
def defGNode : GNode :=
  { id := 0, ntype := NType.P, f := 0, edges := [], boundaries := [],
    productionRuleParameter := [], k_d := (0, 0), used := false }

/-- Embedding of `class Network`. -/
structure Network where
  jn : ℕ
  jnf : ℕ
  pn : ℕ
  pnf : ℕ
  fractalJudgment : Bool
  innerNodes : List GNode
  startNode : GNode
  fitness : ℚ
  invalid : Bool
  currentNodeID : ℕ
  nConsecutiveP : ℕ
  nUsedNodes : ℕ
  decisions : List ℤ
deriving DecidableEq, Repr

/-- `std::numeric_limits<int>::lowest()`, the sentinel returned by
`decisionAndNextNode` when `dMax` is exhausted. -/
def intMin : ℤ := -(2 ^ 31)

/-- Mark the node at index `i` as used (`innerNodes[i].used = true`). -/
def setUsed : List GNode → ℕ → List GNode
  | [], _ => []
  | nd :: rest, 0 => { nd with used := true } :: rest
  | nd :: rest, i + 1 => nd :: setUsed rest i

/-- Embedding of `Network::clearUsedNodes()`. -/
def clearUsedNodes (net : Network) : Network :=
  { net with innerNodes := net.innerNodes.map (fun nd => { nd with used := false }) }

/-- Embedding of `Network::countUsedNodes()`. -/
def countUsedNodes (net : Network) : Network :=
  { net with nUsedNodes := (net.innerNodes.filter (fun nd => nd.used)).length }

/-- Result of the inner `while`-loop of `decisionAndNextNode`. -/
structure JLoopOut where
  nodes : List GNode
  cur : ℕ
  cnt : ℕ
  hitCap : Bool
deriving DecidableEq, Repr

/-- One judgment transition: judge the current feature, follow the
chosen edge, mark the target used.  Returns the updated node list and
the new current node id. -/
def jstep (data : List ℚ) (nodes : List GNode) (cur : ℕ) : List GNode × ℕ :=
  let nd := nodes.getD cur defGNode
  let v := data.getD nd.f 0
  let j := judge nd.boundaries nd.edges.length v
  let cur2 := nd.edges.getD j.toNat 0
  (setUsed nodes cur2, cur2)

/-- The `while (type == "J")` loop of `decisionAndNextNode`.  The counter
`g` is the number of judgment transitions still allowed before the
`dSum ≥ dMax` exit fires, i.e. `g = dMax - dSum - 1`; the loop enters
with `g = (dMax - 1).toNat` (a transition with `g = 0` is the one that
reaches `dSum = dMax` and returns with `hitCap`).  `cnt` accumulates the
number of judgment transitions taken. -/
def jloop (data : List ℚ) : List GNode → ℕ → ℕ → ℕ → JLoopOut
  | nodes, 0, cur, cnt =>
    match (nodes.getD cur defGNode).ntype with
    | NType.J =>
        let s := jstep data nodes cur
        { nodes := s.1, cur := s.2, cnt := cnt + 1, hitCap := true }
    | _ => { nodes := nodes, cur := cur, cnt := cnt, hitCap := false }
  | nodes, g + 1, cur, cnt =>
    match (nodes.getD cur defGNode).ntype with
    | NType.J =>
        let s := jstep data nodes cur
        jloop data s.1 g s.2 (cnt + 1)
    | _ => { nodes := nodes, cur := cur, cnt := cnt, hitCap := false }

/-- Embedding of `Network::decisionAndNextNode(data, dMax)`.  Returns the
updated network, the decision (or `intMin` on cap), and — as a ghost
output used only by specifications — the number of judgment transitions
performed. -/
def decisionAndNextNode (net : Network) (data : List ℚ) (dMax : ℤ) :
    Network × ℤ × ℕ :=
  match (net.innerNodes.getD net.currentNodeID defGNode).ntype with
  | NType.P =>
      let nd := net.innerNodes.getD net.currentNodeID defGNode
      let cur2 := nd.edges.getD 0 0
      ({ net with
          innerNodes := setUsed net.innerNodes cur2
          currentNodeID := cur2
          nConsecutiveP := net.nConsecutiveP + 1 }, (nd.f : ℤ), 0)
  | NType.J =>
      let r := jloop data net.innerNodes (dMax - 1).toNat net.currentNodeID 0
      if r.hitCap then
        ({ net with
            innerNodes := r.nodes
            currentNodeID := r.cur
            nConsecutiveP := 0
            invalid := true }, intMin, r.cnt)
      else
        let nd := r.nodes.getD r.cur defGNode
        let cur2 := nd.edges.getD 0 0
        ({ net with
            innerNodes := setUsed r.nodes cur2
            currentNodeID := cur2
            nConsecutiveP := 1 }, (nd.f : ℤ), r.cnt)
  | NType.S => (net, 0, 0)

/-- The `for (row : X)` loop of `traversePath`. -/
def traverseLoop (dMax : ℤ) : Network → List (List ℚ) → Network
  | net, [] => net
  | net, row :: rows =>
      let r := decisionAndNextNode net row dMax
      traverseLoop dMax { r.1 with decisions := r.1.decisions ++ [r.2.1] } rows

/-- Embedding of `Network::traversePath(X, dMax)`. -/
def traversePath (net : Network) (X : List (List ℚ)) (dMax : ℤ) : Network :=
  let net0 := clearUsedNodes net
  let cur0 := net.startNode.edges.getD 0 0
  traverseLoop dMax
    { net0 with
        decisions := []
        currentNodeID := cur0
        innerNodes := setUsed net0.innerNodes cur0
        nConsecutiveP := 0
        invalid := false } X

/-- Result of the `fitAccuracy` sample loop, with ghost outputs: the
number of samples processed and the list of decisions returned. -/
structure FitAccOut where
  net : Network
  correct : ℚ
  processed : ℕ
  ds : List ℤ
deriving DecidableEq, Repr

/-- The `for (i < y.size())` loop of `fitAccuracy`: evaluate sample `i`,
stop immediately (before comparing) when the network became invalid,
otherwise count a correct prediction when the decision equals `y[i]`. -/
def fitAccuracyLoop (dMax : ℤ) : Network → List (List ℚ) → List ℤ → ℚ → FitAccOut
  | net, _, [], correct => { net := net, correct := correct, processed := 0, ds := [] }
  | net, X, yi :: ys, correct =>
      let r := decisionAndNextNode net (X.headD []) dMax
      if r.1.invalid then
        { net := r.1, correct := correct, processed := 1, ds := [r.2.1] }
      else
        let c2 := if r.2.1 = yi then correct + 1 else correct
        let rest := fitAccuracyLoop dMax r.1 X.tail ys c2
        { net := rest.net, correct := rest.correct, processed := rest.processed + 1,
          ds := r.2.1 :: rest.ds }

/-- Embedding of `Network::fitAccuracy(X, y, dMax, penalty)`.  The
`penalty` parameter is accepted — as in the source — but never read. -/
def fitAccuracy (net : Network) (X : List (List ℚ)) (y : List ℤ) (dMax : ℤ)
    (penalty : ℤ) : FitAccOut :=
  let net0 := clearUsedNodes net
  let cur0 := net.startNode.edges.getD 0 0
  let r := fitAccuracyLoop dMax
    { net0 with
        currentNodeID := cur0
        innerNodes := setUsed net0.innerNodes cur0
        invalid := false } X y 0
  let fit : ℚ := if r.net.invalid then 0 else r.correct / (y.length : ℚ)
  { r with net := { r.net with fitness := fit } }

lemma jloop_cnt (data : List ℚ) :
    ∀ (g : ℕ) (nodes : List GNode) (cur cnt : ℕ),
      ((jloop data nodes g cur cnt).hitCap = true →
        (jloop data nodes g cur cnt).cnt = cnt + g + 1) ∧
      ((jloop data nodes g cur cnt).hitCap = false →
        (jloop data nodes g cur cnt).cnt ≤ cnt + g) := by
  intro g
  induction g with
  | zero =>
      intro nodes cur cnt
      cases h : (nodes.getD cur defGNode).ntype with
      | J =>
          refine ⟨fun _ => ?_, fun hcap => ?_⟩
          · simp only [jloop, h]
          · simp only [jloop, h] at hcap
            exact absurd hcap (by simp)
      | S =>
          refine ⟨fun hcap => ?_, fun _ => ?_⟩
          · simp only [jloop, h] at hcap
            exact absurd hcap (by simp)
          · simp only [jloop, h]
            omega
      | P =>
          refine ⟨fun hcap => ?_, fun _ => ?_⟩
          · simp only [jloop, h] at hcap
            exact absurd hcap (by simp)
          · simp only [jloop, h]
            omega
  | succ g2 ih =>
      intro nodes cur cnt
      cases h : (nodes.getD cur defGNode).ntype with
      | J =>
          have hrw : jloop data nodes (g2 + 1) cur cnt =
              jloop data (jstep data nodes cur).1 g2 (jstep data nodes cur).2 (cnt + 1) := by
            simp only [jloop, h]
          rw [hrw]
          obtain ⟨ih1, ih2⟩ := ih (jstep data nodes cur).1 (jstep data nodes cur).2 (cnt + 1)
          constructor
          · intro hcap
            rw [ih1 hcap]
            omega
          · intro hcap
            have := ih2 hcap
            omega
      | S =>
          refine ⟨fun hcap => ?_, fun _ => ?_⟩
          · simp only [jloop, h] at hcap
            exact absurd hcap (by simp)
          · simp only [jloop, h]
            omega
      | P =>
          refine ⟨fun hcap => ?_, fun _ => ?_⟩
          · simp only [jloop, h] at hcap
            exact absurd hcap (by simp)
          · simp only [jloop, h]
            omega

/-- C6: for a network with valid edges and `dMax ≥ 1`,
`decisionAndNextNode(data, dMax)` performs at most `dMax` judgment
transitions (the embedding is structurally recursive on that bound, so
the call terminates); if the judgment counter reaches `dMax` the call
sets `invalid := true` and returns `std::numeric_limits<int>::lowest()`,
and conversely a call that newly sets `invalid` did exactly `dMax`
transitions and returned the sentinel. -/
theorem C6_decisionAndNextNode (net : Network) (data : List ℚ) (dMax : ℤ)
    (hd : 1 ≤ dMax)
    (_hvalid : ∀ nd ∈ net.innerNodes, ∀ e ∈ nd.edges, e < net.innerNodes.length) :
    (((decisionAndNextNode net data dMax).2.2 : ℤ) ≤ dMax) ∧
    (((decisionAndNextNode net data dMax).2.2 : ℤ) = dMax →
      (decisionAndNextNode net data dMax).1.invalid = true ∧
      (decisionAndNextNode net data dMax).2.1 = intMin) ∧
    ((decisionAndNextNode net data dMax).1.invalid = true → net.invalid = false →
      (decisionAndNextNode net data dMax).2.1 = intMin ∧
      ((decisionAndNextNode net data dMax).2.2 : ℤ) = dMax) := by
  cases h : (net.innerNodes.getD net.currentNodeID defGNode).ntype with
  | P =>
      simp only [decisionAndNextNode, h]
      refine ⟨by omega, by omega, ?_⟩
      intro h1 h2
      rw [h1] at h2
      cases h2
  | S =>
      simp only [decisionAndNextNode, h]
      refine ⟨by omega, by omega, ?_⟩
      intro h1 h2
      rw [h1] at h2
      cases h2
  | J =>
      obtain ⟨hc1, hc2⟩ := jloop_cnt data (dMax - 1).toNat net.innerNodes net.currentNodeID 0
      by_cases hcap : (jloop data net.innerNodes (dMax - 1).toNat net.currentNodeID 0).hitCap
        = true
      · have hcnt := hc1 hcap
        simp only [decisionAndNextNode, h, hcap, if_true]
        have hz : ((jloop data net.innerNodes (dMax - 1).toNat net.currentNodeID 0).cnt : ℤ)
            = dMax := by
          rw [hcnt]
          omega
        refine ⟨le_of_eq hz, ?_, ?_⟩
        · intro _
          simp
        · intro _ _
          simpa using hz
      · have hcap2 : (jloop data net.innerNodes (dMax - 1).toNat net.currentNodeID 0).hitCap
            = false := by
          cases hfc : (jloop data net.innerNodes (dMax - 1).toNat net.currentNodeID 0).hitCap
          · rfl
          · exact absurd hfc hcap
        have hcnt := hc2 hcap2
        simp only [decisionAndNextNode, h, hcap2, Bool.false_eq_true, if_false]
        refine ⟨by omega, by omega, ?_⟩
        intro h1 h2
        rw [h1] at h2
        cases h2

/-! ## C10: fitness evaluation does not modify the genome -/

/-- Forget the transient `used` flag of a node; two nodes with the same
`stripUsed` image agree on `id`, `type`, `f`, `edges`, `boundaries`,
`productionRuleParameter` and `k_d`. -/
def stripUsed (nd : GNode) : GNode := { nd with used := false }

/-- The genome of a network: everything except the transient traversal
state (`fitness`, `invalid`, `currentNodeID`, `nConsecutiveP`,
`nUsedNodes`, `decisions`, and the per-node `used` flags). -/
def sameGenome (a b : Network) : Prop :=
  a.jn = b.jn ∧ a.pn = b.pn ∧ a.jnf = b.jnf ∧ a.pnf = b.pnf ∧
  a.fractalJudgment = b.fractalJudgment ∧ a.startNode = b.startNode ∧
  a.innerNodes.map stripUsed = b.innerNodes.map stripUsed

lemma sameGenome_refl (a : Network) : sameGenome a a :=
  ⟨rfl, rfl, rfl, rfl, rfl, rfl, rfl⟩

lemma sameGenome_trans {a b c : Network} (h1 : sameGenome a b) (h2 : sameGenome b c) :
    sameGenome a c := by
  obtain ⟨x1, x2, x3, x4, x5, x6, x7⟩ := h1
  obtain ⟨y1, y2, y3, y4, y5, y6, y7⟩ := h2
  exact ⟨x1.trans y1, x2.trans y2, x3.trans y3, x4.trans y4, x5.trans y5,
    x6.trans y6, x7.trans y7⟩

lemma setUsed_stripUsed : ∀ (l : List GNode) (i : ℕ),
    (setUsed l i).map stripUsed = l.map stripUsed := by
  intro l
  induction l with
  | nil => intro i; rfl
  | cons nd rest ih =>
      intro i
      cases i with
      | zero => simp [setUsed, stripUsed]
      | succ j => simp [setUsed, ih j]

lemma jloop_genome (data : List ℚ) :
    ∀ (g : ℕ) (nodes : List GNode) (cur cnt : ℕ),
      (jloop data nodes g cur cnt).nodes.map stripUsed = nodes.map stripUsed := by
  intro g
  induction g with
  | zero =>
      intro nodes cur cnt
      cases h : (nodes.getD cur defGNode).ntype with
      | J => simp only [jloop, h, jstep]; exact setUsed_stripUsed _ _
      | S => simp only [jloop, h]
      | P => simp only [jloop, h]
  | succ g2 ih =>
      intro nodes cur cnt
      cases h : (nodes.getD cur defGNode).ntype with
      | J =>
          have hrw : jloop data nodes (g2 + 1) cur cnt =
              jloop data (jstep data nodes cur).1 g2 (jstep data nodes cur).2 (cnt + 1) := by
            simp only [jloop, h]
          rw [hrw, ih]
          exact setUsed_stripUsed _ _
      | S => simp only [jloop, h]
      | P => simp only [jloop, h]

lemma decisionAndNextNode_genome (net : Network) (data : List ℚ) (dMax : ℤ) :
    sameGenome net (decisionAndNextNode net data dMax).1 := by
  cases h : (net.innerNodes.getD net.currentNodeID defGNode).ntype with
  | P =>
      simp only [decisionAndNextNode, h]
      exact ⟨rfl, rfl, rfl, rfl, rfl, rfl, (setUsed_stripUsed _ _).symm⟩
  | S =>
      simp only [decisionAndNextNode, h]
      exact sameGenome_refl net
  | J =>
      by_cases hcap : (jloop data net.innerNodes (dMax - 1).toNat net.currentNodeID 0).hitCap
        = true
      · simp only [decisionAndNextNode, h, hcap, if_true]
        exact ⟨rfl, rfl, rfl, rfl, rfl, rfl, (jloop_genome data _ _ _ _).symm⟩
      · have hcap2 : (jloop data net.innerNodes (dMax - 1).toNat net.currentNodeID 0).hitCap
            = false := by
          cases hfc : (jloop data net.innerNodes (dMax - 1).toNat net.currentNodeID 0).hitCap
          · rfl
          · exact absurd hfc hcap
        simp only [decisionAndNextNode, h, hcap2, Bool.false_eq_true, if_false]
        refine ⟨rfl, rfl, rfl, rfl, rfl, rfl, ?_⟩
        rw [setUsed_stripUsed, jloop_genome]

lemma traverseLoop_genome (dMax : ℤ) :
    ∀ (X : List (List ℚ)) (net : Network), sameGenome net (traverseLoop dMax net X) := by
  intro X
  induction X with
  | nil => intro net; exact sameGenome_refl net
  | cons row rows ih =>
      intro net
      have h1 := decisionAndNextNode_genome net row dMax
      have h2 : sameGenome (decisionAndNextNode net row dMax).1
          { (decisionAndNextNode net row dMax).1 with
            decisions := (decisionAndNextNode net row dMax).1.decisions ++
              [(decisionAndNextNode net row dMax).2.1] } :=
        ⟨rfl, rfl, rfl, rfl, rfl, rfl, rfl⟩
      exact sameGenome_trans (sameGenome_trans h1 h2) (ih _)

lemma fitAccuracyLoop_genome (dMax : ℤ) :
    ∀ (y : List ℤ) (X : List (List ℚ)) (net : Network) (c : ℚ),
      sameGenome net (fitAccuracyLoop dMax net X y c).net := by
  intro y
  induction y with
  | nil => intro X net c; exact sameGenome_refl net
  | cons yi ys ih =>
      intro X net c
      have h1 := decisionAndNextNode_genome net (X.headD []) dMax
      by_cases hinv : (decisionAndNextNode net (X.headD []) dMax).1.invalid = true
      · simp only [fitAccuracyLoop, hinv, if_true]
        exact h1
      · have hinv2 : (decisionAndNextNode net (X.headD []) dMax).1.invalid = false := by
          cases hfc : (decisionAndNextNode net (X.headD []) dMax).1.invalid
          · rfl
          · exact absurd hfc hinv
        simp only [fitAccuracyLoop, hinv2, Bool.false_eq_true, if_false]
        exact sameGenome_trans h1 (ih _ _ _)

/-- C10: fitness evaluation never modifies the genome — `fitAccuracy`,
`traversePath` and `decisionAndNextNode` leave `jn`, `pn`, `jnf`, `pnf`,
`fractalJudgment`, the start node, and every inner node's `id`, type,
`f`, `edges`, `boundaries`, `productionRuleParameter` and `k_d`
unchanged; only transient state (`fitness`, `invalid`, `currentNodeID`,
`nConsecutiveP`, `decisions`, and the per-node `used` flags) may
change. -/
theorem C10_fitness_frame (net : Network) (X : List (List ℚ)) (y : List ℤ)
    (dMax penalty : ℤ) :
    sameGenome net (decisionAndNextNode net (X.headD []) dMax).1 ∧
    sameGenome net (traversePath net X dMax) ∧
    sameGenome net (fitAccuracy net X y dMax penalty).net := by
  refine ⟨decisionAndNextNode_genome net _ dMax, ?_, ?_⟩
  · have h0 : sameGenome net
        { clearUsedNodes net with
            decisions := []
            currentNodeID := net.startNode.edges.getD 0 0
            innerNodes := setUsed (clearUsedNodes net).innerNodes
              (net.startNode.edges.getD 0 0)
            nConsecutiveP := 0
            invalid := false } := by
      refine ⟨rfl, rfl, rfl, rfl, rfl, rfl, ?_⟩
      show net.innerNodes.map stripUsed = (setUsed ((clearUsedNodes net).innerNodes) _).map
        stripUsed
      rw [setUsed_stripUsed]
      show net.innerNodes.map stripUsed =
        (net.innerNodes.map (fun nd => { nd with used := false })).map stripUsed
      rw [List.map_map]
      rfl
    exact sameGenome_trans h0 (traverseLoop_genome dMax X _)
  · have h0 : sameGenome net
        { clearUsedNodes net with
            currentNodeID := net.startNode.edges.getD 0 0
            innerNodes := setUsed (clearUsedNodes net).innerNodes
              (net.startNode.edges.getD 0 0)
            invalid := false } := by
      refine ⟨rfl, rfl, rfl, rfl, rfl, rfl, ?_⟩
      show net.innerNodes.map stripUsed = (setUsed ((clearUsedNodes net).innerNodes) _).map
        stripUsed
      rw [setUsed_stripUsed]
      show net.innerNodes.map stripUsed =
        (net.innerNodes.map (fun nd => { nd with used := false })).map stripUsed
      rw [List.map_map]
      rfl
    have h1 := fitAccuracyLoop_genome dMax y X
      { clearUsedNodes net with
          currentNodeID := net.startNode.edges.getD 0 0
          innerNodes := setUsed (clearUsedNodes net).innerNodes
            (net.startNode.edges.getD 0 0)
          invalid := false } 0
    have h2 : sameGenome (fitAccuracyLoop dMax
        { clearUsedNodes net with
            currentNodeID := net.startNode.edges.getD 0 0
            innerNodes := setUsed (clearUsedNodes net).innerNodes
              (net.startNode.edges.getD 0 0)
            invalid := false } X y 0).net (fitAccuracy net X y dMax penalty).net := by
      show sameGenome _ { (fitAccuracyLoop dMax _ X y 0).net with fitness := _ }
      exact ⟨rfl, rfl, rfl, rfl, rfl, rfl, rfl⟩
    exact sameGenome_trans (sameGenome_trans h0 h1) h2

/-! ## C7: fitAccuracy -/

lemma headD_take (X : List (List ℚ)) (n : ℕ) (h : 1 ≤ n) :
    (X.take n).headD [] = X.headD [] := by
  cases X with
  | nil => simp
  | cons x xs =>
      cases n with
      | zero => omega
      | succ m => simp

lemma tail_take (X : List (List ℚ)) (n : ℕ) :
    (X.take (n + 1)).tail = X.tail.take n := by
  cases X with
  | nil => simp
  | cons x xs => simp

lemma fitAccuracyLoop_spec (dMax : ℤ) :
    ∀ (ys : List ℤ) (X : List (List ℚ)) (net : Network) (c : ℚ),
      net.invalid = false →
      (((fitAccuracyLoop dMax net X ys c).net.invalid = false →
          (fitAccuracyLoop dMax net X ys c).processed = ys.length ∧
          (fitAccuracyLoop dMax net X ys c).ds.length = ys.length ∧
          (fitAccuracyLoop dMax net X ys c).correct =
            c + ((((fitAccuracyLoop dMax net X ys c).ds.zip ys).countP
              (fun p => p.1 = p.2) : ℕ) : ℚ)) ∧
       ((fitAccuracyLoop dMax net X ys c).net.invalid = true →
          1 ≤ (fitAccuracyLoop dMax net X ys c).processed ∧
          (fitAccuracyLoop dMax net X ys c).processed ≤ ys.length ∧
          (fitAccuracyLoop dMax net (X.take (fitAccuracyLoop dMax net X ys c).processed)
              (ys.take (fitAccuracyLoop dMax net X ys c).processed) c).net =
            (fitAccuracyLoop dMax net X ys c).net ∧
          (fitAccuracyLoop dMax net
              (X.take ((fitAccuracyLoop dMax net X ys c).processed - 1))
              (ys.take ((fitAccuracyLoop dMax net X ys c).processed - 1)) c).net.invalid
            = false)) := by
  intro ys
  induction ys with
  | nil =>
      intro X net c hnet
      constructor
      · intro _
        simp [fitAccuracyLoop]
      · intro hinv
        simp only [fitAccuracyLoop] at hinv
        rw [hnet] at hinv
        cases hinv
  | cons yi ys2 ih =>
      intro X net c hnet
      by_cases hinv : (decisionAndNextNode net (X.headD []) dMax).1.invalid = true
      · have heq : fitAccuracyLoop dMax net X (yi :: ys2) c =
            { net := (decisionAndNextNode net (X.headD []) dMax).1, correct := c,
              processed := 1, ds := [(decisionAndNextNode net (X.headD []) dMax).2.1] } := by
          simp only [fitAccuracyLoop, hinv, if_true]
        rw [heq]
        constructor
        · intro hfalse
          rw [hinv] at hfalse
          cases hfalse
        · intro _
          refine ⟨le_refl 1, by simp, ?_, ?_⟩
          · show (fitAccuracyLoop dMax net (X.take 1) ((yi :: ys2).take 1) c).net = _
            have ht : (yi :: ys2).take 1 = [yi] := rfl
            rw [ht]
            have hh : (X.take 1).headD [] = X.headD [] := headD_take X 1 (le_refl 1)
            simp only [fitAccuracyLoop, hh, hinv, if_true]
          · show (fitAccuracyLoop dMax net (X.take 0) ((yi :: ys2).take 0) c).net.invalid
                = false
            simp only [List.take_zero, fitAccuracyLoop]
            exact hnet
      · have hinv2 : (decisionAndNextNode net (X.headD []) dMax).1.invalid = false := by
          cases hfc : (decisionAndNextNode net (X.headD []) dMax).1.invalid
          · rfl
          · exact absurd hfc hinv
        have hPn : (fitAccuracyLoop dMax net X (yi :: ys2) c).processed =
            (fitAccuracyLoop dMax (decisionAndNextNode net (X.headD []) dMax).1 X.tail ys2
              (if (decisionAndNextNode net (X.headD []) dMax).2.1 = yi then c + 1 else c)).processed + 1 := by
          simp only [fitAccuracyLoop, hinv2, Bool.false_eq_true, if_false]
        have hNn : (fitAccuracyLoop dMax net X (yi :: ys2) c).net = (fitAccuracyLoop dMax (decisionAndNextNode net (X.headD []) dMax).1 X.tail ys2
              (if (decisionAndNextNode net (X.headD []) dMax).2.1 = yi then c + 1 else c)).net := by
          simp only [fitAccuracyLoop, hinv2, Bool.false_eq_true, if_false]
        have hDn : (fitAccuracyLoop dMax net X (yi :: ys2) c).ds =
            (decisionAndNextNode net (X.headD []) dMax).2.1 :: (fitAccuracyLoop dMax (decisionAndNextNode net (X.headD []) dMax).1 X.tail ys2
              (if (decisionAndNextNode net (X.headD []) dMax).2.1 = yi then c + 1 else c)).ds := by
          simp only [fitAccuracyLoop, hinv2, Bool.false_eq_true, if_false]
        have hCn : (fitAccuracyLoop dMax net X (yi :: ys2) c).correct = (fitAccuracyLoop dMax (decisionAndNextNode net (X.headD []) dMax).1 X.tail ys2
              (if (decisionAndNextNode net (X.headD []) dMax).2.1 = yi then c + 1 else c)).correct := by
          simp only [fitAccuracyLoop, hinv2, Bool.false_eq_true, if_false]
        obtain ⟨ihf, iht⟩ := ih X.tail (decisionAndNextNode net (X.headD []) dMax).1
          (if (decisionAndNextNode net (X.headD []) dMax).2.1 = yi then c + 1 else c) hinv2
        constructor
        · intro hvalid
          rw [hNn] at hvalid
          obtain ⟨p1, p2, p3⟩ := ihf hvalid
          refine ⟨?_, ?_, ?_⟩
          · rw [hPn, p1]
            simp
          · rw [hDn]
            simp only [List.length_cons]
            rw [p2]
          · rw [hCn, hDn, p3, List.zip_cons_cons, List.countP_cons]
            by_cases hdy : (decisionAndNextNode net (X.headD []) dMax).2.1 = yi
            · simp only [hdy, if_true, decide_True, if_pos]
              push_cast
              ring
            · simp only [hdy, if_false, decide_False, if_neg hdy]
              push_cast
              ring
        · intro hbad
          rw [hNn] at hbad
          obtain ⟨q1, q2, q3, q4⟩ := iht hbad
          refine ⟨?_, ?_, ?_, ?_⟩
          · rw [hPn]
            omega
          · rw [hPn]
            simp only [List.length_cons]
            omega
          · rw [hPn, hNn, List.take_succ_cons]
            have hh := headD_take X ((fitAccuracyLoop dMax (decisionAndNextNode net (X.headD []) dMax).1 X.tail ys2
              (if (decisionAndNextNode net (X.headD []) dMax).2.1 = yi then c + 1 else c)).processed + 1) (by omega)
            simp only [fitAccuracyLoop, hh, hinv2, Bool.false_eq_true, if_false, tail_take]
            exact q3
          · rw [hPn]
            have hp1 : (fitAccuracyLoop dMax (decisionAndNextNode net (X.headD []) dMax).1 X.tail ys2
              (if (decisionAndNextNode net (X.headD []) dMax).2.1 = yi then c + 1 else c)).processed + 1 - 1 = ((fitAccuracyLoop dMax (decisionAndNextNode net (X.headD []) dMax).1 X.tail ys2
              (if (decisionAndNextNode net (X.headD []) dMax).2.1 = yi then c + 1 else c)).processed - 1) + 1 := by omega
            rw [hp1, List.take_succ_cons]
            have hh := headD_take X (((fitAccuracyLoop dMax (decisionAndNextNode net (X.headD []) dMax).1 X.tail ys2
              (if (decisionAndNextNode net (X.headD []) dMax).2.1 = yi then c + 1 else c)).processed - 1) + 1) (by omega)
            simp only [fitAccuracyLoop, hh, hinv2, Bool.false_eq_true, if_false, tail_take]
            exact q4

/-- C7: after `fitAccuracy(X, y, dMax, penalty)` with `|X| ≥ |y| ≥ 1`: if
`invalid` then `fitness = 0` and evaluation stopped at the sample that
triggered invalidity (running the same prefix reproduces the final state,
and the run without that sample is still valid); otherwise `fitness`
equals the number of correct decisions divided by `|y|`, a value in
`[0, 1]`.  The `penalty` argument never influences the result. -/
theorem C7_fitAccuracy (net : Network) (X : List (List ℚ)) (y : List ℤ)
    (dMax penalty : ℤ) (_hXy : y.length ≤ X.length) (hy : 1 ≤ y.length) :
    ((fitAccuracy net X y dMax penalty).net.invalid = true →
       (fitAccuracy net X y dMax penalty).net.fitness = 0 ∧
       1 ≤ (fitAccuracy net X y dMax penalty).processed ∧
       (fitAccuracy net X y dMax penalty).processed ≤ y.length ∧
       (fitAccuracy net (X.take (fitAccuracy net X y dMax penalty).processed)
           (y.take (fitAccuracy net X y dMax penalty).processed) dMax
           penalty).net.invalid = true ∧
       (fitAccuracy net (X.take ((fitAccuracy net X y dMax penalty).processed - 1))
           (y.take ((fitAccuracy net X y dMax penalty).processed - 1)) dMax
           penalty).net.invalid = false) ∧
    ((fitAccuracy net X y dMax penalty).net.invalid = false →
       (fitAccuracy net X y dMax penalty).ds.length = y.length ∧
       (fitAccuracy net X y dMax penalty).net.fitness =
         ((((fitAccuracy net X y dMax penalty).ds.zip y).countP
           (fun p => p.1 = p.2) : ℕ) : ℚ) / (y.length : ℚ) ∧
       0 ≤ (fitAccuracy net X y dMax penalty).net.fitness ∧
       (fitAccuracy net X y dMax penalty).net.fitness ≤ 1) ∧
    (∀ p2 : ℤ, fitAccuracy net X y dMax penalty = fitAccuracy net X y dMax p2) := by
  have hstart : ({ clearUsedNodes net with
      currentNodeID := net.startNode.edges.getD 0 0
      innerNodes := setUsed (clearUsedNodes net).innerNodes
        (net.startNode.edges.getD 0 0)
      invalid := false } : Network).invalid = false := rfl
  obtain ⟨hf, ht⟩ := fitAccuracyLoop_spec dMax y X
    { clearUsedNodes net with
        currentNodeID := net.startNode.edges.getD 0 0
        innerNodes := setUsed (clearUsedNodes net).innerNodes
          (net.startNode.edges.getD 0 0)
        invalid := false } 0 hstart
  have hInv : ∀ X2 y2, (fitAccuracy net X2 y2 dMax penalty).net.invalid =
      (fitAccuracyLoop dMax
        { clearUsedNodes net with
            currentNodeID := net.startNode.edges.getD 0 0
            innerNodes := setUsed (clearUsedNodes net).innerNodes
              (net.startNode.edges.getD 0 0)
            invalid := false } X2 y2 0).net.invalid := by
    intro X2 y2
    simp only [fitAccuracy]
  have hP : (fitAccuracy net X y dMax penalty).processed =
      (fitAccuracyLoop dMax
        { clearUsedNodes net with
            currentNodeID := net.startNode.edges.getD 0 0
            innerNodes := setUsed (clearUsedNodes net).innerNodes
              (net.startNode.edges.getD 0 0)
            invalid := false } X y 0).processed := by
    simp only [fitAccuracy]
  have hDs : (fitAccuracy net X y dMax penalty).ds =
      (fitAccuracyLoop dMax
        { clearUsedNodes net with
            currentNodeID := net.startNode.edges.getD 0 0
            innerNodes := setUsed (clearUsedNodes net).innerNodes
              (net.startNode.edges.getD 0 0)
            invalid := false } X y 0).ds := by
    simp only [fitAccuracy]
  have hFit : (fitAccuracy net X y dMax penalty).net.fitness =
      (if (fitAccuracyLoop dMax
        { clearUsedNodes net with
            currentNodeID := net.startNode.edges.getD 0 0
            innerNodes := setUsed (clearUsedNodes net).innerNodes
              (net.startNode.edges.getD 0 0)
            invalid := false } X y 0).net.invalid then (0 : ℚ)
        else (fitAccuracyLoop dMax
        { clearUsedNodes net with
            currentNodeID := net.startNode.edges.getD 0 0
            innerNodes := setUsed (clearUsedNodes net).innerNodes
              (net.startNode.edges.getD 0 0)
            invalid := false } X y 0).correct / (y.length : ℚ)) := by
    simp only [fitAccuracy]
  refine ⟨?_, ?_, fun p2 => rfl⟩
  · intro h1
    rw [hInv] at h1
    obtain ⟨q1, q2, q3, q4⟩ := ht h1
    refine ⟨?_, ?_, ?_, ?_, ?_⟩
    · rw [hFit, h1]
      simp
    · rw [hP]; exact q1
    · rw [hP]; exact q2
    · rw [hInv, hP, q3]
      exact h1
    · rw [hInv, hP]
      exact q4
  · intro h1
    rw [hInv] at h1
    obtain ⟨p1, p2, p3⟩ := hf h1
    have hlen0 : (0 : ℚ) < (y.length : ℚ) := by
      have : (0 : ℕ) < y.length := hy
      exact_mod_cast this
    have hcount : ((((fitAccuracyLoop dMax
        { clearUsedNodes net with
            currentNodeID := net.startNode.edges.getD 0 0
            innerNodes := setUsed (clearUsedNodes net).innerNodes
              (net.startNode.edges.getD 0 0)
            invalid := false } X y 0).ds.zip y).countP
          (fun p => p.1 = p.2)) : ℕ) ≤ y.length := by
      calc (((fitAccuracyLoop dMax
          { clearUsedNodes net with
              currentNodeID := net.startNode.edges.getD 0 0
              innerNodes := setUsed (clearUsedNodes net).innerNodes
                (net.startNode.edges.getD 0 0)
              invalid := false } X y 0).ds.zip y).countP (fun p => p.1 = p.2))
          ≤ ((fitAccuracyLoop dMax
          { clearUsedNodes net with
              currentNodeID := net.startNode.edges.getD 0 0
              innerNodes := setUsed (clearUsedNodes net).innerNodes
                (net.startNode.edges.getD 0 0)
              invalid := false } X y 0).ds.zip y).length := List.countP_le_length _
        _ ≤ y.length := by
            rw [List.length_zip, p2]
            omega
    refine ⟨?_, ?_, ?_, ?_⟩
    · rw [hDs]; exact p2
    · rw [hFit, hDs]
      simp only [h1, Bool.false_eq_true, if_false]
      rw [p3]
      simp
    · rw [hFit]
      simp only [h1, Bool.false_eq_true, if_false]
      rw [p3]
      positivity
    · rw [hFit]
      simp only [h1, Bool.false_eq_true, if_false]
      rw [p3]
      rw [div_le_one hlen0]
      simp only [zero_add]
      exact_mod_cast hcount

/-- A small concrete network used to instantiate theorems with
hypotheses: one judgment node (id 0) and one processing node (id 1). -/
def witNet : Network where
  jn := 1
  jnf := 2
  pn := 1
  pnf := 1
  fractalJudgment := false
  innerNodes :=
    [{ id := 0, ntype := NType.J, f := 0, edges := [1, 1], boundaries := [0, 1, 2],
       productionRuleParameter := [], k_d := (0, 0), used := false },
     { id := 1, ntype := NType.P, f := 0, edges := [0], boundaries := [],
       productionRuleParameter := [], k_d := (0, 0), used := false }]
  startNode :=
    { id := 0, ntype := NType.S, f := 0, edges := [1], boundaries := [],
      productionRuleParameter := [], k_d := (0, 0), used := false }
  fitness := 0
  invalid := false
  currentNodeID := 1
  nConsecutiveP := 0
  nUsedNodes := 0
  decisions := []

/-- C6 witness: the claim instantiated at `witNet`, one feature row,
`dMax = 3`. -/
theorem C6_decisionAndNextNode_witness :
    (1 ≤ (3 : ℤ)) ∧
    (∀ nd ∈ witNet.innerNodes, ∀ e ∈ nd.edges, e < witNet.innerNodes.length) ∧
    (((decisionAndNextNode witNet [5] 3).2.2 : ℤ) ≤ 3) :=
  ⟨by norm_num, by decide, (C6_decisionAndNextNode witNet [5] 3 (by norm_num) (by decide)).1⟩

/-- C7 witness: the claim instantiated at `witNet`, one sample. -/
theorem C7_fitAccuracy_witness :
    (([(0 : ℤ)] : List ℤ).length ≤ ([[0, 0]] : List (List ℚ)).length) ∧
    (1 ≤ ([(0 : ℤ)] : List ℤ).length) ∧
    (∀ p2 : ℤ, fitAccuracy witNet [[0, 0]] [0] 5 2 = fitAccuracy witNet [[0, 0]] [0] 5 p2) :=
  ⟨by decide, by decide,
    (C7_fitAccuracy witNet [[0, 0]] [0] 5 2 (by decide) (by decide)).2.2⟩

/-! ## Population.hpp: tournament selection with elitism (C3) -/

/-- Out-of-range access default for `std::vector<Network>` (UB in C++;
theorems carry bounds hypotheses making it irrelevant). -/
def defNetwork : Network where
  jn := 0
  jnf := 0
  pn := 0
  pnf := 0
  fractalJudgment := false
  innerNodes := []
  startNode := defGNode
  fitness := 0
  invalid := false
  currentNodeID := 0
  nConsecutiveP := 0
  nUsedNodes := 0
  decisions := []

/-- Embedding of `class Population` (the shared PRNG is externalised). -/
structure Population where
  ni : ℕ
  individuals : List Network
  bestFit : ℚ
  indicesElite : List ℕ
  meanFitness : ℚ
  minFitness : ℚ

/-- `std::numeric_limits<float>::lowest()`, the per-tournament best-fitness
sentinel. -/
def floatLowest : ℚ := -((2 : ℚ) ^ 128 - 2 ^ 104)

/-- The winner scan of one tournament (`for(int k : tournament)` with a
strict `>` improvement test; `tournament` lists the sampled ids in the
iteration order of the `unordered_set`). -/
def tournamentWinner (inds : List Network) (t : List ℕ) : ℕ :=
  (t.foldl (fun acc k =>
      if (inds.getD k defNetwork).fitness > acc.1
      then ((inds.getD k defNetwork).fitness, k) else acc)
    (floatLowest, 0)).2

/-- The main selection loop of `tournamentSelection`: one entry of `ts`
per slot (the C++ runs `individuals.size() - E` slots), accumulating the
new population and the `meanFitness` / `minFitness` / `bestFit`
statistics. -/
def tournamentRounds (inds : List Network) :
    List (List ℕ) → List Network → ℚ → ℚ → ℚ → List Network × ℚ × ℚ × ℚ
  | [], sel, meanF, minF, bestF => (sel, meanF, minF, bestF)
  | t :: ts, sel, meanF, minF, bestF =>
      tournamentRounds inds ts
        (sel ++ [inds.getD (tournamentWinner inds t) defNetwork])
        (meanF + (inds.getD (tournamentWinner inds t) defNetwork).fitness)
        (if (inds.getD (tournamentWinner inds t) defNetwork).fitness < minF
          then (inds.getD (tournamentWinner inds t) defNetwork).fitness else minF)
        (if (inds.getD (tournamentWinner inds t) defNetwork).fitness > bestF
          then (inds.getD (tournamentWinner inds t) defNetwork).fitness else bestF)

/-- The argmax scan of `setElite` (`for(int i=1; ...)` with strict `>`):
returns the running best fitness and its index. -/
def bestIndexGo : List Network → ℕ → ℚ → ℕ → ℚ × ℕ
  | [], _, bf, bi => (bf, bi)
  | x :: rest, i, bf, bi =>
      if x.fitness > bf then bestIndexGo rest (i + 1) x.fitness i
      else bestIndexGo rest (i + 1) bf bi

/-- Embedding of `Population::setElite(E, individuals, selection)`: `E`
rounds of extract-the-maximum from a working copy, appending each elite
to the selection, recording its index, and raising `bestFit`. -/
def setElite : ℕ → List Network → List Network → List ℕ → ℚ →
    List Network × List ℕ × ℚ
  | 0, _, sel, elites, bf => (sel, elites, bf)
  | _ + 1, [], sel, elites, bf => (sel, elites, bf)
  | e + 1, w :: ws, sel, elites, bf =>
      setElite e ((w :: ws).eraseIdx (bestIndexGo ws 1 w.fitness 0).2)
        (sel ++ [(w :: ws).getD (bestIndexGo ws 1 w.fitness 0).2 defNetwork])
        (elites ++ [sel.length])
        (if (bestIndexGo ws 1 w.fitness 0).1 > bf
          then (bestIndexGo ws 1 w.fitness 0).1 else bf)

/-- Embedding of `Population::tournamentSelection(N, E)`; `ts` records,
for each of the `ni - E` slots, the tournament set drawn by the PRNG in
iteration order. -/
def tournamentSelection (pop : Population) (ts : List (List ℕ)) (E : ℕ) : Population :=
  let r := tournamentRounds pop.individuals ts [] 0
    (pop.individuals.getD 0 defNetwork).fitness
    (pop.individuals.getD 0 defNetwork).fitness
  let s := setElite E pop.individuals r.1 [] r.2.2.2
  { pop with
      individuals := s.1
      bestFit := s.2.2
      indicesElite := s.2.1
      meanFitness := r.2.1 / (s.1.length : ℚ)
      minFitness := r.2.2.1 }

/-- The maximum fitness of a population (the reference value for the
elitism law). -/
def maxFitness : List Network → ℚ
  | [] => 0
  | x :: rest => rest.foldl (fun a nd => max a nd.fitness) x.fitness

lemma le_foldl_max : ∀ (l : List Network) (a : ℚ),
    a ≤ l.foldl (fun x nd => max x nd.fitness) a := by
  intro l
  induction l with
  | nil => intro a; exact le_refl a
  | cons x rest ih =>
      intro a
      calc a ≤ max a x.fitness := le_max_left a x.fitness
        _ ≤ (x :: rest).foldl (fun y nd => max y nd.fitness) a := ih (max a x.fitness)

lemma foldl_max_of_mem : ∀ (l : List Network) (a : ℚ) (nd : Network), nd ∈ l →
    nd.fitness ≤ l.foldl (fun x m => max x m.fitness) a := by
  intro l
  induction l with
  | nil => intro a nd h; cases h
  | cons x rest ih =>
      intro a nd h
      rcases List.mem_cons.mp h with rfl | h
      · calc nd.fitness ≤ max a nd.fitness := le_max_right a nd.fitness
          _ ≤ rest.foldl (fun y m => max y m.fitness) (max a nd.fitness) :=
            le_foldl_max rest (max a nd.fitness)
      · exact ih (max a x.fitness) nd h

lemma foldl_max_cases : ∀ (l : List Network) (a : ℚ),
    l.foldl (fun x m => max x m.fitness) a = a ∨
    ∃ nd ∈ l, l.foldl (fun x m => max x m.fitness) a = nd.fitness := by
  intro l
  induction l with
  | nil => intro a; exact Or.inl rfl
  | cons x rest ih =>
      intro a
      rcases ih (max a x.fitness) with h | ⟨nd, hmem, h⟩
      · rcases max_choice a x.fitness with hm | hm
        · left
          rw [List.foldl_cons, h, hm]
        · refine Or.inr ⟨x, List.mem_cons_self x rest, ?_⟩
          rw [List.foldl_cons, h, hm]
      · refine Or.inr ⟨nd, List.mem_cons_of_mem x hmem, ?_⟩
        rw [List.foldl_cons]
        exact h

lemma fitness_le_maxFitness (l : List Network) (nd : Network) (h : nd ∈ l) :
    nd.fitness ≤ maxFitness l := by
  cases l with
  | nil => cases h
  | cons x rest =>
      rcases List.mem_cons.mp h with rfl | h
      · exact le_foldl_max rest nd.fitness
      · exact foldl_max_of_mem rest x.fitness nd h

lemma maxFitness_mem (l : List Network) (h : l ≠ []) :
    ∃ nd ∈ l, nd.fitness = maxFitness l := by
  cases l with
  | nil => exact absurd rfl h
  | cons x rest =>
      rcases foldl_max_cases rest x.fitness with h2 | ⟨nd, hmem, h2⟩
      · exact ⟨x, List.mem_cons_self x rest, h2.symm⟩
      · exact ⟨nd, List.mem_cons_of_mem x hmem, h2.symm⟩

lemma getD_mem {l : List Network} {i : ℕ} (h : i < l.length) :
    l.getD i defNetwork ∈ l := by
  rw [List.getD_eq_getElem?_getD, List.getElem?_eq_getElem h]
  exact List.getElem_mem h

lemma max_eq_if (a b : ℚ) : (if b > a then b else a) = max a b := by
  rcases le_or_lt b a with h | h
  · rw [if_neg (not_lt.mpr h), max_eq_left h]
  · rw [if_pos h, max_eq_right h.le]

lemma bestIndexGo_spec :
    ∀ (l full : List Network) (i : ℕ) (bf : ℚ) (bi : ℕ),
      full.drop i = l → bi < full.length →
      (full.getD bi defNetwork).fitness = bf →
      (bestIndexGo l i bf bi).2 < full.length ∧
      (full.getD (bestIndexGo l i bf bi).2 defNetwork).fitness = (bestIndexGo l i bf bi).1 ∧
      (bestIndexGo l i bf bi).1 = l.foldl (fun a nd => max a nd.fitness) bf := by
  intro l
  induction l with
  | nil =>
      intro full i bf bi _ hbi hfit
      exact ⟨hbi, hfit, rfl⟩
  | cons x rest ih =>
      intro full i bf bi hdrop hbi hfit
      have hi : i < full.length := by
        by_contra hcon
        rw [List.drop_eq_nil_of_le (le_of_not_lt hcon)] at hdrop
        cases hdrop
      have hx : full.getD i defNetwork = x := by
        have h0 : full[i]? = some x := by
          have := List.getElem?_drop full i 0
          rw [hdrop] at this
          simpa using this.symm
        rw [List.getD_eq_getElem?_getD, h0]
        rfl
      have hnext : full.drop (i + 1) = rest := by
        have : (full.drop i).drop 1 = full.drop (i + 1) := List.drop_drop 1 i full
        rw [← this, hdrop]
        rfl
      by_cases hgt : x.fitness > bf
      · have hstep : bestIndexGo (x :: rest) i bf bi = bestIndexGo rest (i + 1) x.fitness i := by
          simp only [bestIndexGo, hgt, if_true]
        rw [hstep]
        obtain ⟨r1, r2, r3⟩ := ih full (i + 1) x.fitness i hnext hi (by rw [hx])
        refine ⟨r1, r2, ?_⟩
        rw [r3, List.foldl_cons, max_eq_right hgt.le]
      · have hstep : bestIndexGo (x :: rest) i bf bi = bestIndexGo rest (i + 1) bf bi := by
          simp only [bestIndexGo, hgt, if_false]
        rw [hstep]
        obtain ⟨r1, r2, r3⟩ := ih full (i + 1) bf bi hnext hbi hfit
        refine ⟨r1, r2, ?_⟩
        rw [r3, List.foldl_cons, max_eq_left (not_lt.mp hgt)]

lemma bestIndexGo_maxFitness (w : Network) (ws : List Network) :
    (bestIndexGo ws 1 w.fitness 0).2 < (w :: ws).length ∧
    ((w :: ws).getD (bestIndexGo ws 1 w.fitness 0).2 defNetwork).fitness =
      (bestIndexGo ws 1 w.fitness 0).1 ∧
    (bestIndexGo ws 1 w.fitness 0).1 = maxFitness (w :: ws) := by
  have h := bestIndexGo_spec ws (w :: ws) 1 w.fitness 0 rfl (by simp) rfl
  exact ⟨h.1, h.2.1, h.2.2⟩

lemma tournamentWinner_lt (inds : List Network) (t : List ℕ)
    (hne : 0 < inds.length) (ht : ∀ j ∈ t, j < inds.length) :
    tournamentWinner inds t < inds.length := by
  rw [tournamentWinner]
  have haux : ∀ (l : List ℕ) (acc : ℚ × ℕ), acc.2 < inds.length →
      (∀ j ∈ l, j < inds.length) →
      (l.foldl (fun acc k =>
        if (inds.getD k defNetwork).fitness > acc.1
        then ((inds.getD k defNetwork).fitness, k) else acc) acc).2 < inds.length := by
    intro l
    induction l with
    | nil => intro acc hacc _; exact hacc
    | cons j rest ih =>
        intro acc hacc hmem
        rw [List.foldl_cons]
        by_cases hj : (inds.getD j defNetwork).fitness > acc.1
        · rw [if_pos hj]
          exact ih _ (hmem j (List.mem_cons_self j rest))
            (fun k hk => hmem k (List.mem_cons_of_mem j hk))
        · rw [if_neg hj]
          exact ih _ hacc (fun k hk => hmem k (List.mem_cons_of_mem j hk))
  exact haux t (floatLowest, 0) hne ht

lemma tournamentRounds_spec (inds : List Network) (M : ℚ) (hne : 0 < inds.length)
    (hM : ∀ nd ∈ inds, nd.fitness ≤ M) :
    ∀ (ts : List (List ℕ)) (sel : List Network) (meanF minF bestF : ℚ),
      (∀ t ∈ ts, ∀ j ∈ t, j < inds.length) → bestF ≤ M →
      (tournamentRounds inds ts sel meanF minF bestF).1.length = sel.length + ts.length ∧
      (tournamentRounds inds ts sel meanF minF bestF).2.2.2 ≤ M := by
  intro ts
  induction ts with
  | nil => intro sel meanF minF bestF _ hb; exact ⟨by simp [tournamentRounds], hb⟩
  | cons t ts2 ih =>
      intro sel meanF minF bestF hts hb
      have hw : tournamentWinner inds t < inds.length :=
        tournamentWinner_lt inds t hne (hts t (List.mem_cons_self t ts2))
      have hfw : (inds.getD (tournamentWinner inds t) defNetwork).fitness ≤ M :=
        hM _ (getD_mem hw)
      have hb2 : (if (inds.getD (tournamentWinner inds t) defNetwork).fitness > bestF
          then (inds.getD (tournamentWinner inds t) defNetwork).fitness else bestF) ≤ M := by
        by_cases hc : (inds.getD (tournamentWinner inds t) defNetwork).fitness > bestF
        · rw [if_pos hc]; exact hfw
        · rw [if_neg hc]; exact hb
      obtain ⟨r1, r2⟩ := ih (sel ++ [inds.getD (tournamentWinner inds t) defNetwork]) _ _ _
        (fun u hu => hts u (List.mem_cons_of_mem t hu)) hb2
      constructor
      · rw [tournamentRounds, r1]
        simp
        omega
      · rw [tournamentRounds]
        exact r2

lemma setElite_prefix :
    ∀ (E : ℕ) (work sel : List Network) (elites : List ℕ) (bf : ℚ),
      ∃ suffix esuffix, (setElite E work sel elites bf).1 = sel ++ suffix ∧
        (setElite E work sel elites bf).2.1 = elites ++ esuffix := by
  intro E
  induction E with
  | zero => intro work sel elites bf; exact ⟨[], [], by simp [setElite], by simp [setElite]⟩
  | succ e ih =>
      intro work sel elites bf
      cases work with
      | nil => exact ⟨[], [], by simp [setElite], by simp [setElite]⟩
      | cons w ws =>
          obtain ⟨suffix, esuffix, h1, h2⟩ := ih
            ((w :: ws).eraseIdx (bestIndexGo ws 1 w.fitness 0).2)
            (sel ++ [(w :: ws).getD (bestIndexGo ws 1 w.fitness 0).2 defNetwork])
            (elites ++ [sel.length])
            (if (bestIndexGo ws 1 w.fitness 0).1 > bf
              then (bestIndexGo ws 1 w.fitness 0).1 else bf)
          refine ⟨[(w :: ws).getD (bestIndexGo ws 1 w.fitness 0).2 defNetwork] ++ suffix,
            [sel.length] ++ esuffix, ?_, ?_⟩
          · rw [setElite, h1, List.append_assoc]
          · rw [setElite, h2, List.append_assoc]

lemma setElite_len :
    ∀ (E : ℕ) (work sel : List Network) (elites : List ℕ) (bf : ℚ),
      E ≤ work.length →
      (setElite E work sel elites bf).1.length = sel.length + E := by
  intro E
  induction E with
  | zero => intro work sel elites bf _; simp [setElite]
  | succ e ih =>
      intro work sel elites bf hE
      cases work with
      | nil => simp at hE
      | cons w ws =>
          have hlt : (bestIndexGo ws 1 w.fitness 0).2 < (w :: ws).length :=
            (bestIndexGo_maxFitness w ws).1
          have herase : ((w :: ws).eraseIdx (bestIndexGo ws 1 w.fitness 0).2).length
              = ws.length := by
            rw [List.length_eraseIdx, if_pos hlt]
            simp
          rw [setElite, ih _ _ _ _ (by rw [herase]; simpa using hE)]
          simp
          omega

lemma setElite_bf_stable :
    ∀ (E : ℕ) (work sel : List Network) (elites : List ℕ) (bf : ℚ),
      (∀ nd ∈ work, nd.fitness ≤ bf) →
      (setElite E work sel elites bf).2.2 = bf := by
  intro E
  induction E with
  | zero => intro work sel elites bf _; simp [setElite]
  | succ e ih =>
      intro work sel elites bf hall
      cases work with
      | nil => simp [setElite]
      | cons w ws =>
          have hmax : (bestIndexGo ws 1 w.fitness 0).1 ≤ bf := by
            rw [(bestIndexGo_maxFitness w ws).2.2]
            obtain ⟨nd, hmem, hnd⟩ := maxFitness_mem (w :: ws) (by simp)
            rw [← hnd]
            exact hall nd hmem
          have hif : (if (bestIndexGo ws 1 w.fitness 0).1 > bf
              then (bestIndexGo ws 1 w.fitness 0).1 else bf) = bf := by
            rw [if_neg (not_lt.mpr hmax)]
          rw [setElite, hif]
          exact ih _ _ _ _ (fun nd hnd =>
            hall nd (List.mem_of_mem_eraseIdx hnd))

lemma getD_append_self (sel : List Network) (x : Network) (t : List Network) :
    (sel ++ x :: t).getD sel.length defNetwork = x := by
  rw [List.getD_eq_getElem?_getD, List.getElem?_append_right (le_refl sel.length)]
  simp

lemma getD_append_self_nat (sel : List ℕ) (x : ℕ) (t : List ℕ) :
    (sel ++ x :: t).getD sel.length 0 = x := by
  rw [List.getD_eq_getElem?_getD, List.getElem?_append_right (le_refl sel.length)]
  simp

lemma setElite_main (E : ℕ) (work sel : List Network) (elites : List ℕ) (bf : ℚ)
    (hE : 1 ≤ E) (hW : E ≤ work.length) (hbf : bf ≤ maxFitness work) :
    ((setElite E work sel elites bf).1.getD sel.length defNetwork).fitness
      = maxFitness work ∧
    (setElite E work sel elites bf).2.1.getD elites.length 0 = sel.length ∧
    (setElite E work sel elites bf).2.2 = maxFitness work := by
  cases E with
  | zero => omega
  | succ e =>
      cases work with
      | nil => simp at hW
      | cons w ws =>
          obtain ⟨hlt, hfit, hmax⟩ := bestIndexGo_maxFitness w ws
          have hbf2 : (if (bestIndexGo ws 1 w.fitness 0).1 > bf
              then (bestIndexGo ws 1 w.fitness 0).1 else bf) = maxFitness (w :: ws) := by
            rw [max_eq_if bf (bestIndexGo ws 1 w.fitness 0).1, hmax,
              max_eq_right hbf]
          have hchosen : ((w :: ws).getD (bestIndexGo ws 1 w.fitness 0).2
              defNetwork).fitness = maxFitness (w :: ws) := by
            rw [hfit, hmax]
          obtain ⟨suffix, esuffix, h1, h2⟩ := setElite_prefix e
            ((w :: ws).eraseIdx (bestIndexGo ws 1 w.fitness 0).2)
            (sel ++ [(w :: ws).getD (bestIndexGo ws 1 w.fitness 0).2 defNetwork])
            (elites ++ [sel.length])
            (if (bestIndexGo ws 1 w.fitness 0).1 > bf
              then (bestIndexGo ws 1 w.fitness 0).1 else bf)
          refine ⟨?_, ?_, ?_⟩
          · rw [setElite, h1, List.append_assoc]
            show ((sel ++ ((w :: ws).getD (bestIndexGo ws 1 w.fitness 0).2 defNetwork
              :: suffix)).getD sel.length defNetwork).fitness = _
            rw [getD_append_self]
            exact hchosen
          · rw [setElite, h2, List.append_assoc]
            show (elites ++ (sel.length :: esuffix)).getD elites.length 0 = sel.length
            rw [getD_append_self_nat]
          · rw [setElite, hbf2]
            refine setElite_bf_stable e _ _ _ _ ?_
            intro nd hnd
            exact fitness_le_maxFitness (w :: ws) nd (List.mem_of_mem_eraseIdx hnd)

/-- C3: for a population of `ni` individuals and `1 ≤ N ≤ ni`,
`1 ≤ E ≤ ni`, after `tournamentSelection(N, E)` the population again has
`ni` individuals, the first elite appended by `setElite` (placed at index
`ni - E`, which is also recorded as the first entry of `indicesElite`)
has fitness equal to the pre-call maximum — so the maximum fitness never
decreases across one selection — and `bestFit` equals that pre-call
maximum. -/
theorem C3_tournamentSelection (pop : Population) (ts : List (List ℕ)) (N E : ℕ)
    (hni : pop.individuals.length = pop.ni)
    (_hN1 : 1 ≤ N) (_hNni : N ≤ pop.ni) (hE1 : 1 ≤ E) (hEni : E ≤ pop.ni)
    (hts : ts.length = pop.ni - E)
    (htidx : ∀ t ∈ ts, ∀ j ∈ t, j < pop.ni)
    (_htlen : ∀ t ∈ ts, t.length = N) :
    (tournamentSelection pop ts E).individuals.length = pop.ni ∧
    ((tournamentSelection pop ts E).individuals.getD (pop.ni - E) defNetwork).fitness
      = maxFitness pop.individuals ∧
    (tournamentSelection pop ts E).indicesElite.getD 0 0 = pop.ni - E ∧
    (tournamentSelection pop ts E).bestFit = maxFitness pop.individuals := by
  have hpos : 0 < pop.individuals.length := by omega
  have hM : ∀ nd ∈ pop.individuals, nd.fitness ≤ maxFitness pop.individuals :=
    fun nd h => fitness_le_maxFitness _ nd h
  have hb0 : (pop.individuals.getD 0 defNetwork).fitness ≤ maxFitness pop.individuals :=
    hM _ (getD_mem hpos)
  obtain ⟨hr1, hr2⟩ := tournamentRounds_spec pop.individuals
    (maxFitness pop.individuals) hpos hM ts [] 0
    (pop.individuals.getD 0 defNetwork).fitness
    (pop.individuals.getD 0 defNetwork).fitness
    (fun t ht j hj => by rw [hni]; exact htidx t ht j hj) hb0
  have hrlen : (tournamentRounds pop.individuals ts [] 0
      (pop.individuals.getD 0 defNetwork).fitness
      (pop.individuals.getD 0 defNetwork).fitness).1.length = pop.ni - E := by
    rw [hr1, hts]
    simp
  obtain ⟨hs1, hs2, hs3⟩ := setElite_main E pop.individuals
    (tournamentRounds pop.individuals ts [] 0
      (pop.individuals.getD 0 defNetwork).fitness
      (pop.individuals.getD 0 defNetwork).fitness).1 []
    (tournamentRounds pop.individuals ts [] 0
      (pop.individuals.getD 0 defNetwork).fitness
      (pop.individuals.getD 0 defNetwork).fitness).2.2.2
    hE1 (by omega) hr2
  have hind : (tournamentSelection pop ts E).individuals =
      (setElite E pop.individuals
        (tournamentRounds pop.individuals ts [] 0
          (pop.individuals.getD 0 defNetwork).fitness
          (pop.individuals.getD 0 defNetwork).fitness).1 []
        (tournamentRounds pop.individuals ts [] 0
          (pop.individuals.getD 0 defNetwork).fitness
          (pop.individuals.getD 0 defNetwork).fitness).2.2.2).1 := by
    simp only [tournamentSelection]
  have helite : (tournamentSelection pop ts E).indicesElite =
      (setElite E pop.individuals
        (tournamentRounds pop.individuals ts [] 0
          (pop.individuals.getD 0 defNetwork).fitness
          (pop.individuals.getD 0 defNetwork).fitness).1 []
        (tournamentRounds pop.individuals ts [] 0
          (pop.individuals.getD 0 defNetwork).fitness
          (pop.individuals.getD 0 defNetwork).fitness).2.2.2).2.1 := by
    simp only [tournamentSelection]
  have hbest : (tournamentSelection pop ts E).bestFit =
      (setElite E pop.individuals
        (tournamentRounds pop.individuals ts [] 0
          (pop.individuals.getD 0 defNetwork).fitness
          (pop.individuals.getD 0 defNetwork).fitness).1 []
        (tournamentRounds pop.individuals ts [] 0
          (pop.individuals.getD 0 defNetwork).fitness
          (pop.individuals.getD 0 defNetwork).fitness).2.2.2).2.2 := by
    simp only [tournamentSelection]
  refine ⟨?_, ?_, ?_, ?_⟩
  · rw [hind, setElite_len E _ _ _ _ (by omega), hrlen]
    omega
  · rw [hind, ← hrlen]
    exact hs1
  · rw [helite]
    have h0 := hs2
    simp only [List.length_nil] at h0
    rw [h0, hrlen]
  · rw [hbest]
    exact hs3

/-- C3 witness: two individuals with fitnesses 5 and 7, one tournament
of size 2, one elite. -/
theorem C3_tournamentSelection_witness :
    (([[0, 1]] : List (List ℕ)).length = 2 - 1) ∧
    (∀ t ∈ ([[0, 1]] : List (List ℕ)), ∀ j ∈ t, j < 2) ∧
    ((tournamentSelection
        { ni := 2
          individuals := [{ defNetwork with fitness := 5 }, { defNetwork with fitness := 7 }]
          bestFit := 0
          indicesElite := []
          meanFitness := 0
          minFitness := 0 } [[0, 1]] 1).bestFit =
      maxFitness [{ defNetwork with fitness := 5 }, { defNetwork with fitness := 7 }]) := by
  refine ⟨rfl, by decide, ?_⟩
  exact (C3_tournamentSelection
    { ni := 2
      individuals := [{ defNetwork with fitness := 5 }, { defNetwork with fitness := 7 }]
      bestFit := 0
      indicesElite := []
      meanFitness := 0
      minFitness := 0 } [[0, 1]] 2 1 rfl (by norm_num) (by norm_num) (by norm_num)
    (by norm_num) rfl (by decide) (by decide)).2.2.2

/-! ## Population.hpp: crossover (C4) -/

/-- Embedding of `Network::changeFalseEdges()`: every edge that points
past the end of `innerNodes` is redirected; `u a b` records the value
`changeEdge` drew for edge `b` of node `a`. -/
def changeFalseEdges (net : Network) (u : ℕ → ℕ → ℕ) : Network :=
  { net with
      innerNodes := net.innerNodes.mapIdx (fun a nd =>
        { nd with
            edges := nd.edges.mapIdx (fun b e =>
              if net.innerNodes.length ≤ e then u a b else e) }) }

/-- `std::swap(parent1.innerNodes[k], parent2.innerNodes[k])`. -/
def crossNodeSwap (p1 p2 : Network) (k : ℕ) : Network × Network :=
  ({ p1 with innerNodes := p1.innerNodes.set k (p2.innerNodes.getD k defGNode) },
   { p2 with innerNodes := p2.innerNodes.set k (p1.innerNodes.getD k defGNode) })

/-- The `for (k < maxNodeNumbers - 1)` loop of `crossover`: with the
recorded Bernoulli outcome `dec k`, swap position `k` and — when the
parents differ in size — repair the smaller parent's false edges with
the recorded redirections `u k`. -/
def crossPairGo (dec : ℕ → Bool) (u : ℕ → ℕ → ℕ → ℕ) :
    ℕ → ℕ → Network → Network → Network × Network
  | 0, _, p1, p2 => (p1, p2)
  | fuel + 1, k, p1, p2 =>
      if dec k then
        let q := crossNodeSwap p1 p2 k
        if q.1.innerNodes.length < q.2.innerNodes.length then
          crossPairGo dec u fuel (k + 1) (changeFalseEdges q.1 (u k)) q.2
        else if q.2.innerNodes.length < q.1.innerNodes.length then
          crossPairGo dec u fuel (k + 1) q.1 (changeFalseEdges q.2 (u k))
        else
          crossPairGo dec u fuel (k + 1) q.1 q.2
      else crossPairGo dec u fuel (k + 1) p1 p2

/-- Consecutive pairing `(inds[0], inds[1]), (inds[2], inds[3]), …` of the
shuffled index list (a trailing odd element is ignored, as in the
`i += 2` loop bound). -/
def mkPairs : List ℕ → List (ℕ × ℕ)
  | a :: b :: rest => (a, b) :: mkPairs rest
  | _ => []

/-- The pair loop of `Population::crossover`: skip pairs touching an
elite, otherwise run the node-swap loop over
`min(|A.innerNodes|, |B.innerNodes|) - 1` positions and write both
parents back. -/
def crossoverPairs (dec : ℕ → ℕ → Bool) (u : ℕ → ℕ → ℕ → ℕ → ℕ) (elite : List ℕ) :
    List (ℕ × ℕ) → ℕ → List Network → List Network
  | [], _, inds => inds
  | (a, b) :: rest, pidx, inds =>
      if a ∈ elite ∨ b ∈ elite then crossoverPairs dec u elite rest (pidx + 1) inds
      else
        let p1 := inds.getD a defNetwork
        let p2 := inds.getD b defNetwork
        let q := crossPairGo (dec pidx) (u pidx)
          (min p1.innerNodes.length p2.innerNodes.length - 1) 0 p1 p2
        crossoverPairs dec u elite rest (pidx + 1) ((inds.set a q.1).set b q.2)

/-- Embedding of `Population::crossover(p)`: `inds` records the shuffled
index list, `dec` the Bernoulli draws (per pair, per position), `u` the
`changeEdge` redirections. -/
def crossover (pop : Population) (inds : List ℕ) (dec : ℕ → ℕ → Bool)
    (u : ℕ → ℕ → ℕ → ℕ → ℕ) : Population :=
  { pop with
      individuals := crossoverPairs dec u pop.indicesElite (mkPairs inds) 0
        pop.individuals }

/-- The number of inner nodes of the given type. -/
def countType (l : List GNode) (ty : NType) : ℕ :=
  l.countP (fun nd => nd.ntype == ty)

/-- The counter invariant of claim C4: `jn + pn = |innerNodes|`, `jn`
counts the Judgment nodes and `pn` the Processing nodes. -/
def countersValid (net : Network) : Prop :=
  net.jn + net.pn = net.innerNodes.length ∧
  net.jn = countType net.innerNodes NType.J ∧
  net.pn = countType net.innerNodes NType.P

instance (net : Network) : Decidable (countersValid net) := by
  unfold countersValid
  infer_instance

/-- Two three-node parents with identical counters but different type
layouts: swapping position 0 desynchronises `jn`/`pn` from the real
counts. -/
def cxA : Network :=
  { witNet with
      jn := 1
      pn := 2
      innerNodes :=
        [{ id := 0, ntype := NType.J, f := 0, edges := [1, 2], boundaries := [0, 1, 2],
           productionRuleParameter := [], k_d := (0, 0), used := false },
         { id := 1, ntype := NType.P, f := 0, edges := [2], boundaries := [],
           productionRuleParameter := [], k_d := (0, 0), used := false },
         { id := 2, ntype := NType.P, f := 0, edges := [0], boundaries := [],
           productionRuleParameter := [], k_d := (0, 0), used := false }] }

/-- Second parent: Processing first, Judgment second. -/
def cxB : Network :=
  { witNet with
      jn := 1
      pn := 2
      innerNodes :=
        [{ id := 0, ntype := NType.P, f := 0, edges := [1], boundaries := [],
           productionRuleParameter := [], k_d := (0, 0), used := false },
         { id := 1, ntype := NType.J, f := 0, edges := [0, 2], boundaries := [0, 1, 2],
           productionRuleParameter := [], k_d := (0, 0), used := false },
         { id := 2, ntype := NType.P, f := 0, edges := [0], boundaries := [],
           productionRuleParameter := [], k_d := (0, 0), used := false }] }

/-- The two-individual population used for the C4 counterexample. -/
def cxPop : Population :=
  { ni := 2, individuals := [cxA, cxB], bestFit := 0, indicesElite := [],
    meanFitness := 0, minFitness := 0 }

/-- C4 counterexample: both individuals of `cxPop` satisfy the counter
invariant, but after one `crossover` call (shuffle `[0, 1]`, swap drawn
only at position 0) the first individual has `jn = 1` while containing
no Judgment node, refuting the claim that `crossover` preserves the
per-type counter equalities. -/
theorem C4_crossover_counterexample :
    (∀ ind ∈ cxPop.individuals, countersValid ind) ∧
    ¬ (∀ ind ∈ (crossover cxPop [0, 1] (fun _ k => k == 0)
        (fun _ _ _ _ => 0)).individuals, countersValid ind) := by
  constructor
  · decide
  · decide

lemma crossPairGo_preserves (dec : ℕ → Bool) (u : ℕ → ℕ → ℕ → ℕ) :
    ∀ (fuel k : ℕ) (p1 p2 : Network),
      ((crossPairGo dec u fuel k p1 p2).1.jn = p1.jn ∧
       (crossPairGo dec u fuel k p1 p2).1.pn = p1.pn ∧
       (crossPairGo dec u fuel k p1 p2).1.innerNodes.length = p1.innerNodes.length) ∧
      ((crossPairGo dec u fuel k p1 p2).2.jn = p2.jn ∧
       (crossPairGo dec u fuel k p1 p2).2.pn = p2.pn ∧
       (crossPairGo dec u fuel k p1 p2).2.innerNodes.length = p2.innerNodes.length) := by
  intro fuel
  induction fuel with
  | zero => intro k p1 p2; exact ⟨⟨rfl, rfl, rfl⟩, ⟨rfl, rfl, rfl⟩⟩
  | succ f ih =>
      intro k p1 p2
      by_cases hd : dec k
      · by_cases h1 : (crossNodeSwap p1 p2 k).1.innerNodes.length <
            (crossNodeSwap p1 p2 k).2.innerNodes.length
        · have hrw : crossPairGo dec u (f + 1) k p1 p2 =
              crossPairGo dec u f (k + 1)
                (changeFalseEdges (crossNodeSwap p1 p2 k).1 (u k))
                (crossNodeSwap p1 p2 k).2 := by
            simp only [crossPairGo, hd, if_true, h1]
          rw [hrw]
          obtain ⟨⟨a1, a2, a3⟩, b1, b2, b3⟩ := ih (k + 1)
            (changeFalseEdges (crossNodeSwap p1 p2 k).1 (u k)) (crossNodeSwap p1 p2 k).2
          refine ⟨⟨a1.trans rfl, a2.trans rfl, ?_⟩, b1.trans rfl, b2.trans rfl, ?_⟩
          · rw [a3]
            show ((crossNodeSwap p1 p2 k).1.innerNodes.mapIdx _).length = _
            rw [List.length_mapIdx]
            show (p1.innerNodes.set k _).length = _
            rw [List.length_set]
          · rw [b3]
            show (p2.innerNodes.set k _).length = _
            rw [List.length_set]
        · by_cases h2 : (crossNodeSwap p1 p2 k).2.innerNodes.length <
              (crossNodeSwap p1 p2 k).1.innerNodes.length
          · have hrw : crossPairGo dec u (f + 1) k p1 p2 =
                crossPairGo dec u f (k + 1) (crossNodeSwap p1 p2 k).1
                  (changeFalseEdges (crossNodeSwap p1 p2 k).2 (u k)) := by
              simp only [crossPairGo, hd, if_true, h1, if_false, h2]
            rw [hrw]
            obtain ⟨⟨a1, a2, a3⟩, b1, b2, b3⟩ := ih (k + 1) (crossNodeSwap p1 p2 k).1
              (changeFalseEdges (crossNodeSwap p1 p2 k).2 (u k))
            refine ⟨⟨a1.trans rfl, a2.trans rfl, ?_⟩, b1.trans rfl, b2.trans rfl, ?_⟩
            · rw [a3]
              show (p1.innerNodes.set k _).length = _
              rw [List.length_set]
            · rw [b3]
              show ((crossNodeSwap p1 p2 k).2.innerNodes.mapIdx _).length = _
              rw [List.length_mapIdx]
              show (p2.innerNodes.set k _).length = _
              rw [List.length_set]
          · have hrw : crossPairGo dec u (f + 1) k p1 p2 =
                crossPairGo dec u f (k + 1) (crossNodeSwap p1 p2 k).1
                  (crossNodeSwap p1 p2 k).2 := by
              simp only [crossPairGo, hd, if_true, h1, if_false, h2]
            rw [hrw]
            obtain ⟨⟨a1, a2, a3⟩, b1, b2, b3⟩ := ih (k + 1) (crossNodeSwap p1 p2 k).1
              (crossNodeSwap p1 p2 k).2
            refine ⟨⟨a1.trans rfl, a2.trans rfl, ?_⟩, b1.trans rfl, b2.trans rfl, ?_⟩
            · rw [a3]
              show (p1.innerNodes.set k _).length = _
              rw [List.length_set]
            · rw [b3]
              show (p2.innerNodes.set k _).length = _
              rw [List.length_set]
      · have hrw : crossPairGo dec u (f + 1) k p1 p2 =
            crossPairGo dec u f (k + 1) p1 p2 := by
          simp only [crossPairGo]
          rw [if_neg hd]
        rw [hrw]
        exact ih (k + 1) p1 p2

lemma getD_countersSum {l : List Network} (a : ℕ)
    (h : ∀ ind ∈ l, ind.jn + ind.pn = ind.innerNodes.length) :
    (l.getD a defNetwork).jn + (l.getD a defNetwork).pn
      = (l.getD a defNetwork).innerNodes.length := by
  rcases Nat.lt_or_ge a l.length with ha | ha
  · exact h _ (getD_mem ha)
  · rw [List.getD_eq_getElem?_getD, List.getElem?_eq_none (by omega)]
    rfl

lemma mem_set_cases {l : List Network} {a : ℕ} {x ind : Network}
    (h : ind ∈ l.set a x) : ind ∈ l ∨ ind = x := by
  rcases List.mem_or_eq_of_mem_set h with h2 | h2
  · exact Or.inl h2
  · exact Or.inr h2

lemma crossoverPairs_sum (dec : ℕ → ℕ → Bool) (u : ℕ → ℕ → ℕ → ℕ → ℕ)
    (elite : List ℕ) :
    ∀ (pairs : List (ℕ × ℕ)) (pidx : ℕ) (inds : List Network),
      (∀ ind ∈ inds, ind.jn + ind.pn = ind.innerNodes.length) →
      ∀ ind ∈ crossoverPairs dec u elite pairs pidx inds,
        ind.jn + ind.pn = ind.innerNodes.length := by
  intro pairs
  induction pairs with
  | nil => intro pidx inds h; exact h
  | cons ab rest ih =>
      intro pidx inds h
      obtain ⟨a, b⟩ := ab
      by_cases he : a ∈ elite ∨ b ∈ elite
      · have hrw : crossoverPairs dec u elite ((a, b) :: rest) pidx inds =
            crossoverPairs dec u elite rest (pidx + 1) inds := by
          simp only [crossoverPairs, he, if_true]
        rw [hrw]
        exact ih (pidx + 1) inds h
      · have hrw : crossoverPairs dec u elite ((a, b) :: rest) pidx inds =
            crossoverPairs dec u elite rest (pidx + 1)
              ((inds.set a (crossPairGo (dec pidx) (u pidx)
                  (min (inds.getD a defNetwork).innerNodes.length
                    (inds.getD b defNetwork).innerNodes.length - 1) 0
                  (inds.getD a defNetwork) (inds.getD b defNetwork)).1).set b
                (crossPairGo (dec pidx) (u pidx)
                  (min (inds.getD a defNetwork).innerNodes.length
                    (inds.getD b defNetwork).innerNodes.length - 1) 0
                  (inds.getD a defNetwork) (inds.getD b defNetwork)).2) := by
          simp only [crossoverPairs, he, if_false]
        rw [hrw]
        refine ih (pidx + 1) _ ?_
        intro ind hind
        obtain ⟨⟨a1, a2, a3⟩, b1, b2, b3⟩ := crossPairGo_preserves (dec pidx) (u pidx)
          (min (inds.getD a defNetwork).innerNodes.length
            (inds.getD b defNetwork).innerNodes.length - 1) 0
          (inds.getD a defNetwork) (inds.getD b defNetwork)
        rcases mem_set_cases hind with hind2 | rfl
        · rcases mem_set_cases hind2 with hind3 | rfl
          · exact h ind hind3
          · rw [a1, a2, a3]
            exact getD_countersSum a h
        · rw [b1, b2, b3]
          exact getD_countersSum b h

/-- C4 amended: after `crossover(p)` every individual still satisfies
`jn + pn = |innerNodes|` (node swaps are one-for-one and never touch the
counters), but — as the counterexample shows — `jn` need not equal the
count of Judgment nodes nor `pn` the count of Processing nodes, because
`crossover` exchanges whole nodes without updating the counters. -/
theorem C4_crossover_amended (pop : Population) (inds : List ℕ)
    (dec : ℕ → ℕ → Bool) (u : ℕ → ℕ → ℕ → ℕ → ℕ)
    (hsum : ∀ ind ∈ pop.individuals, ind.jn + ind.pn = ind.innerNodes.length) :
    ∀ ind ∈ (crossover pop inds dec u).individuals,
      ind.jn + ind.pn = ind.innerNodes.length := by
  intro ind hind
  exact crossoverPairs_sum dec u pop.indicesElite (mkPairs inds) 0 pop.individuals
    hsum ind hind

/-- C4 witness: the amended claim instantiated at the counterexample
population. -/
theorem C4_crossover_amended_witness :
    (∀ ind ∈ cxPop.individuals, ind.jn + ind.pn = ind.innerNodes.length) ∧
    (∀ ind ∈ (crossover cxPop [0, 1] (fun _ k => k == 0)
        (fun _ _ _ _ => 0)).individuals, ind.jn + ind.pn = ind.innerNodes.length) :=
  ⟨by decide, C4_crossover_amended cxPop [0, 1] (fun _ k => k == 0)
    (fun _ _ _ _ => 0) (by decide)⟩

/-! ### C1: `addDelNodes` — structural invariants after node addition/deletion -/

/-- Oracle for the stochastic draws consumed by one call to
`Network::addDelNodes`: the two Bernoulli results, the node-function
draw, the edge draw of a freshly added processing node, the edge list of
a freshly added judgment node, the fractal `(k,d)` pair, the parameter
cuts, and the rejection-sampled replacement edges produced by
`Node::changeEdge` during deletion (indexed by node position `a` and
edge position `b`). -/
structure AddDelDraws where
  resultAdd : Bool
  resultP : Bool
  fNew : ℕ
  eP : ℕ
  esJ : List ℕ
  kd : ℕ × ℕ
  cuts : List ℚ
  redir : ℕ → ℕ → ℕ

/-- Loop body of `Node::setEdgesBoundaries`: iteration `i` appends the
running `sum` and advances it by the `i`-th span; `c` counts the
remaining iterations (`numEdges + 1` in total). -/
def setEdgesBoundariesGo (numEdges : ℕ) (minf maxf : ℚ) (lengths : List ℚ) :
    ℕ → ℕ → ℚ → List ℚ
  | 0, _, _ => []
  | c + 1, i, sum =>
    let span := if lengths.length = 0 then (maxf - minf) / (numEdges : ℚ)
      else (maxf - minf) * lengths.getD i 0
    sum :: setEdgesBoundariesGo numEdges minf maxf lengths c (i + 1) (sum + span)

/-- Embedding of `Node::setEdgesBoundaries` applied to an empty
boundaries vector (the only way `addDelNodes` calls it). -/
def setEdgesBoundaries (numEdges : ℕ) (minf maxf : ℚ) (lengths : List ℚ) : List ℚ :=
  setEdgesBoundariesGo numEdges minf maxf lengths (numEdges + 1) 0 minf

/-- Position of the first unused inner node — the index at which the
deletion branch of the `for` loop in `addDelNodes` fires. -/
def firstUnused (l : List GNode) : Option ℕ :=
  l.findIdx? (fun nd => nd.used == false)

/-- Id relabelling performed by the first deletion pass: ids greater
than the deleted node's id `t` are decremented. -/
def delNewId (t idv : ℕ) : ℕ := if t < idv then idv - 1 else idv

/-- First deletion pass of `addDelNodes`: decrement every id greater
than the deleted node's id `t`. -/
def delIds (t : ℕ) (l : List GNode) : List GNode :=
  l.map (fun nd => if t < nd.id then { nd with id := nd.id - 1 } else nd)

/-- Second deletion pass of `addDelNodes`: edges above the deleted
position `n` are decremented, edges equal to `n` are replaced by the
`changeEdge` draw for that slot, the rest stay. -/
def delEdges (redir : ℕ → ℕ → ℕ) (n : ℕ) (l : List GNode) : List GNode :=
  l.mapIdx (fun a nd =>
    { nd with edges := nd.edges.mapIdx (fun b e =>
        if n < e then e - 1 else if e = n then redir a b else e) })

/-- Embedding of `Network::addDelNodes`.  The `for` loop either fires
the add branch at `n = 0` (its guard does not depend on `n`) and breaks,
or fires the delete branch at the first unused node and breaks, or falls
through without effect. -/
def addDelNodes (net : Network) (o : AddDelDraws) (minF maxF : List ℚ) : Network :=
  let net0 := countUsedNodes net
  let len := net0.innerNodes.length
  if o.resultAdd then
    if len ≤ net0.nUsedNodes then
      if o.resultP then
        { net0 with
            innerNodes := net0.innerNodes ++
              [{ defGNode with id := len, ntype := NType.P, f := o.fNew, edges := [o.eP] }]
            pn := net0.pn + 1 }
      else if net0.fractalJudgment then
        { net0 with
            innerNodes := net0.innerNodes ++
              [{ defGNode with
                  id := len
                  ntype := NType.J
                  f := o.fNew
                  edges := o.esJ
                  boundaries := setEdgesBoundaries o.esJ.length (minF.getD o.fNew 0)
                    (maxF.getD o.fNew 0)
                    (fractalLengths o.kd.2 (sortAndDistance (randomParameterCuts o.cuts)))
                  productionRuleParameter := randomParameterCuts o.cuts
                  k_d := o.kd }]
            jn := net0.jn + 1 }
      else
        { net0 with
            innerNodes := net0.innerNodes ++
              [{ defGNode with
                  id := len
                  ntype := NType.J
                  f := o.fNew
                  edges := o.esJ
                  boundaries := setEdgesBoundaries o.esJ.length (minF.getD o.fNew 0)
                    (maxF.getD o.fNew 0) [] }]
            jn := net0.jn + 1 }
    else net0
  else if 1 < len - net0.nUsedNodes then
    match firstUnused net0.innerNodes with
    | none => net0
    | some n =>
      let t := (net0.innerNodes.getD n defGNode).id
      let nodes2 := delEdges o.redir n (delIds t net0.innerNodes)
      let start2 := if n < net0.startNode.edges.getD 0 0 then
          { net0.startNode with
              edges := net0.startNode.edges.set 0 (net0.startNode.edges.getD 0 0 - 1) }
        else net0.startNode
      { net0 with
          innerNodes := nodes2.eraseIdx n
          startNode := start2
          jn := if (net0.innerNodes.getD n defGNode).ntype = NType.J then net0.jn - 1
            else net0.jn
          pn := if (net0.innerNodes.getD n defGNode).ntype = NType.P then net0.pn - 1
            else net0.pn }
  else net0

/-- Four-processing-node network that refutes the no-self-loop clause of
the `addDelNodes` post-condition at the start node: node 0 is unused and
is deleted, and the start edge `1` is decremented to `0`, the start
node's own id. -/
def cDelNet : Network where
  jn := 0
  jnf := 1
  pn := 4
  pnf := 1
  fractalJudgment := false
  innerNodes := [
    { defGNode with id := 0, ntype := NType.P, edges := [1], used := false },
    { defGNode with id := 1, ntype := NType.P, edges := [2], used := true },
    { defGNode with id := 2, ntype := NType.P, edges := [3], used := false },
    { defGNode with id := 3, ntype := NType.P, edges := [1], used := true }]
  startNode := { defGNode with id := 0, ntype := NType.S, edges := [1] }
  fitness := 0
  invalid := false
  currentNodeID := 0
  nConsecutiveP := 0
  nUsedNodes := 0
  decisions := []

/-- Oracle for the refuting call: the add/delete Bernoulli chooses
deletion; the `changeEdge` draws are never consulted (no edge points at
the deleted node) but are valid anyway. -/
def cDelOracle : AddDelDraws where
  resultAdd := false
  resultP := false
  fNew := 0
  eP := 0
  esJ := []
  kd := (0, 0)
  cuts := []
  redir := fun a _ => if a = 2 then 2 else 1

/-- C1, counterexample.  `cDelNet` satisfies every precondition of the
claim — contiguous ids, every inner and start edge a valid index that
differs from its source node's id, at least 3 inner nodes, more than one
unused node in the deletion case — yet after `addDelNodes` the start
node's single edge equals the start node's id, refuting the claimed
post-condition that no edge equals its source node's id. -/
theorem C1_addDelNodes_counterexample :
    (∀ i < cDelNet.innerNodes.length, (cDelNet.innerNodes.getD i defGNode).id = i) ∧
    (∀ nd ∈ cDelNet.innerNodes, ∀ e ∈ nd.edges,
      e < cDelNet.innerNodes.length ∧ e ≠ nd.id) ∧
    (∀ e ∈ cDelNet.startNode.edges,
      e < cDelNet.innerNodes.length ∧ e ≠ cDelNet.startNode.id) ∧
    3 ≤ cDelNet.innerNodes.length ∧
    cDelOracle.resultAdd = false ∧
    1 < cDelNet.innerNodes.length -
      (cDelNet.innerNodes.filter (fun nd => nd.used)).length ∧
    ¬ (∀ e ∈ (addDelNodes cDelNet cDelOracle [] []).startNode.edges,
        e ≠ (addDelNodes cDelNet cDelOracle [] []).startNode.id) := by
  decide

/-- `getD` at an in-range index is `getElem`. -/
lemma getD_lt {α : Type} (l : List α) (d : α) (i : ℕ) (h : i < l.length) :
    l.getD i d = l[i] := by
  rw [List.getD_eq_getElem?_getD, List.getElem?_eq_getElem h]
  rfl

/-- An in-range `getD` is a member of the list. -/
lemma getD_mem_list {α : Type} (l : List α) (d : α) (i : ℕ) (h : i < l.length) :
    l.getD i d ∈ l := by
  rw [getD_lt l d i h]
  exact List.getElem_mem h

/-- A list of length one is the singleton of its first entry. -/
lemma eq_singleton_of_length_one {α : Type} (l : List α) (d : α) (h : l.length = 1) :
    l = [l.getD 0 d] := by
  cases l with
  | nil => simp at h
  | cons a t =>
    cases t with
    | nil => rfl
    | cons b u => simp at h

/-- `getD` below the erased index. -/
lemma eraseIdx_getD_lt {α : Type} (l : List α) (d : α) (n i : ℕ) (hi : i < n)
    (h2 : i < (l.eraseIdx n).length) :
    (l.eraseIdx n).getD i d = l.getD i d := by
  have hl : i < l.length := by
    rw [List.length_eraseIdx] at h2
    split at h2 <;> omega
  rw [getD_lt _ d i h2, getD_lt l d i hl]
  exact List.getElem_eraseIdx_of_lt l n i h2 hi

/-- `getD` at or above the erased index. -/
lemma eraseIdx_getD_ge {α : Type} (l : List α) (d : α) (n i : ℕ) (hi : n ≤ i)
    (h2 : i < (l.eraseIdx n).length) :
    (l.eraseIdx n).getD i d = l.getD (i + 1) d := by
  have hl : i + 1 < l.length := by
    rw [List.length_eraseIdx] at h2
    split at h2 <;> omega
  rw [getD_lt _ d i h2, getD_lt l d (i + 1) hl]
  exact List.getElem_eraseIdx_of_ge l n i h2 hi

/-- Pointwise description of the id-relabelling pass. -/
lemma delIds_getD (t : ℕ) (l : List GNode) (j : ℕ) (hj : j < l.length) :
    (delIds t l).getD j defGNode =
      if t < (l.getD j defGNode).id
        then { l.getD j defGNode with id := (l.getD j defGNode).id - 1 }
        else l.getD j defGNode := by
  have h2 : j < (delIds t l).length := by simpa [delIds] using hj
  rw [getD_lt _ defGNode j h2, getD_lt l defGNode j hj]
  simp [delIds]

/-- Pointwise description of the edge-rewriting pass. -/
lemma delEdges_getD (redir : ℕ → ℕ → ℕ) (n : ℕ) (l : List GNode) (j : ℕ)
    (hj : j < l.length) :
    (delEdges redir n l).getD j defGNode =
      { l.getD j defGNode with
          edges := (l.getD j defGNode).edges.mapIdx
            (fun b e => if n < e then e - 1 else if e = n then redir j b else e) } := by
  have h2 : j < (delEdges redir n l).length := by simpa [delEdges] using hj
  rw [getD_lt _ defGNode j h2, getD_lt l defGNode j hj]
  simp [delEdges]

/-- The first unused index is in range, holds an unused node, and every
earlier node is used. -/
lemma firstUnused_spec {l : List GNode} {n : ℕ} (h : firstUnused l = some n) :
    n < l.length ∧ (l.getD n defGNode).used = false ∧
      ∀ i < n, (l.getD i defGNode).used = true := by
  have h2 : l.findIdx? (fun nd => nd.used == false) = some n := h
  obtain ⟨hn, hidx⟩ := List.findIdx?_eq_some_iff_findIdx_eq.mp h2
  subst hidx
  refine ⟨hn, ?_, ?_⟩
  · rw [getD_lt l defGNode _ hn]
    have hp := l.findIdx_of_getElem?_eq_some (List.getElem?_eq_getElem hn)
    simpa using hp
  · intro i hi
    have hil : i < l.length := lt_trans hi hn
    rw [getD_lt l defGNode i hil]
    have hp : (fun nd => nd.used == false) l[i] = false := List.not_of_lt_findIdx hi
    simpa using hp

/-- Under the deletion guard (more than one unused node) the first
unused index is never the last index. -/
lemma firstUnused_lt_pred {l : List GNode} {n : ℕ} (h : firstUnused l = some n)
    (hcnt : 1 < l.length - (l.filter (fun nd => nd.used)).length) :
    n + 1 < l.length := by
  obtain ⟨hn, hfalse, hprefix⟩ := firstUnused_spec h
  by_contra hcon
  have hlen : l.length = n + 1 := by omega
  have htake : ∀ a ∈ l.take n, (fun nd => nd.used) a = true := by
    intro a ha
    obtain ⟨i, hi, hgete⟩ := List.mem_iff_getElem.mp ha
    have hi2 : i < n := by
      have := hi
      simp at this
      omega
    have hi3 : i < l.length := by omega
    have hsame : (l.take n)[i] = l[i] := by simp [List.getElem_take]
    rw [hsame] at hgete
    subst hgete
    have hu := hprefix i hi2
    rw [getD_lt l defGNode i hi3] at hu
    exact hu
  have hcp : (l.take n).countP (fun nd => nd.used) = n := by
    rw [List.countP_eq_length.mpr htake]
    simp
    omega
  have hsplit : l.countP (fun nd => nd.used) =
      (l.take n).countP (fun nd => nd.used) + (l.drop n).countP (fun nd => nd.used) := by
    rw [← List.countP_append, List.take_append_drop]
  have hfl : (l.filter (fun nd => nd.used)).length = l.countP (fun nd => nd.used) :=
    (List.countP_eq_length_filter _ _).symm
  have hub : l.countP (fun nd => nd.used) ≤ l.length := List.countP_le_length _
  omega

/-- Appending a fresh node with the next id and in-range edges preserves
the structural invariants. -/
lemma append_node_invariants (l : List GNode) (x : GNode)
    (hids : ∀ i < l.length, (l.getD i defGNode).id = i)
    (hvalid : ∀ nd ∈ l, ∀ e ∈ nd.edges, e < l.length)
    (hself : ∀ nd ∈ l, ∀ e ∈ nd.edges, e ≠ nd.id)
    (hxid : x.id = l.length)
    (hxe : ∀ e ∈ x.edges, e < l.length) :
    (∀ i < (l ++ [x]).length, ((l ++ [x]).getD i defGNode).id = i) ∧
    (∀ nd ∈ l ++ [x], ∀ e ∈ nd.edges, e < (l ++ [x]).length ∧ e ≠ nd.id) := by
  have hlen : (l ++ [x]).length = l.length + 1 := by simp
  constructor
  · intro i hi
    rw [hlen] at hi
    by_cases h : i < l.length
    · have hsame : (l ++ [x]).getD i defGNode = l.getD i defGNode := by
        rw [getD_lt _ defGNode i (by rw [hlen]; omega), getD_lt l defGNode i h]
        exact List.getElem_append_left h
      rw [hsame]
      exact hids i h
    · have hi2 : i = l.length := by omega
      subst hi2
      have hsame : (l ++ [x]).getD l.length defGNode = x := by
        rw [getD_lt _ defGNode _ (by rw [hlen]; omega)]
        rw [List.getElem_append_right (le_refl _)]
        simp
      rw [hsame, hxid]
  · intro nd hnd e he
    rcases List.mem_append.mp hnd with h | h
    · refine ⟨by rw [hlen]; exact lt_trans (hvalid nd h e he) (by omega), hself nd h e he⟩
    · have hx : nd = x := by simpa using h
      subst hx
      have h1 := hxe e he
      refine ⟨by rw [hlen]; omega, ?_⟩
      rw [hxid]
      omega

/-- The deletion protocol of `addDelNodes` re-establishes contiguous
ids, valid edges (into the shortened array) and the absence of
self-loops on the inner nodes. -/
lemma delete_invariants (l : List GNode) (redir : ℕ → ℕ → ℕ) (n : ℕ)
    (hn1 : n + 1 < l.length)
    (hids : ∀ i < l.length, (l.getD i defGNode).id = i)
    (hvalid : ∀ nd ∈ l, ∀ e ∈ nd.edges, e < l.length)
    (hself : ∀ nd ∈ l, ∀ e ∈ nd.edges, e ≠ nd.id)
    (hredir : ∀ a < l.length, ∀ b < (l.getD a defGNode).edges.length,
      redir a b + 1 < l.length ∧ redir a b ≠ delNewId n ((l.getD a defGNode).id) ∧
      redir a b ≠ n) :
    ((delEdges redir n (delIds n l)).eraseIdx n).length = l.length - 1 ∧
    (∀ i < ((delEdges redir n (delIds n l)).eraseIdx n).length,
      (((delEdges redir n (delIds n l)).eraseIdx n).getD i defGNode).id = i) ∧
    (∀ nd ∈ (delEdges redir n (delIds n l)).eraseIdx n, ∀ e ∈ nd.edges,
      e + 1 < l.length ∧ e ≠ nd.id) := by
  have hL1len : (delIds n l).length = l.length := by simp [delIds]
  have hL2len : (delEdges redir n (delIds n l)).length = l.length := by
    simp [delEdges, hL1len]
  have hRlen : ((delEdges redir n (delIds n l)).eraseIdx n).length = l.length - 1 := by
    rw [List.length_eraseIdx, hL2len]
    have hn : n < l.length := by omega
    simp [hn]
  have key : ∀ i, i < l.length - 1 → ∀ j, ((i < n ∧ j = i) ∨ (n ≤ i ∧ j = i + 1)) →
      ((delEdges redir n (delIds n l)).eraseIdx n).getD i defGNode =
        { l.getD j defGNode with
            id := delNewId n ((l.getD j defGNode).id)
            edges := (l.getD j defGNode).edges.mapIdx
              (fun b e => if n < e then e - 1 else if e = n then redir j b else e) } := by
    intro i hi j hj
    have hiR : i < ((delEdges redir n (delIds n l)).eraseIdx n).length := by
      rw [hRlen]
      omega
    rcases hj with ⟨hin, hje⟩ | ⟨hin, hje⟩
    · rw [hje]
      rw [eraseIdx_getD_lt _ defGNode n i hin hiR]
      rw [delEdges_getD redir n _ i (by rw [hL1len]; omega)]
      rw [delIds_getD n l i (by omega)]
      by_cases hc : n < (l.getD i defGNode).id
      · rw [if_pos hc]
        simp only [delNewId]
        rw [if_pos hc]
      · rw [if_neg hc]
        simp only [delNewId]
        rw [if_neg hc]
    · rw [hje]
      rw [eraseIdx_getD_ge _ defGNode n i hin hiR]
      rw [delEdges_getD redir n _ (i + 1) (by rw [hL1len]; omega)]
      rw [delIds_getD n l (i + 1) (by omega)]
      by_cases hc : n < (l.getD (i + 1) defGNode).id
      · rw [if_pos hc]
        simp only [delNewId]
        rw [if_pos hc]
      · rw [if_neg hc]
        simp only [delNewId]
        rw [if_neg hc]
  refine ⟨hRlen, ?_, ?_⟩
  · intro i hi
    rw [hRlen] at hi
    by_cases hin : i < n
    · rw [key i hi i (Or.inl ⟨hin, rfl⟩)]
      show delNewId n ((l.getD i defGNode).id) = i
      rw [hids i (by omega)]
      simp only [delNewId]
      rw [if_neg (by omega)]
    · rw [key i hi (i + 1) (Or.inr ⟨by omega, rfl⟩)]
      show delNewId n ((l.getD (i + 1) defGNode).id) = i
      rw [hids (i + 1) (by omega)]
      simp only [delNewId]
      rw [if_pos (by omega)]
      omega
  · intro nd hnd e he
    obtain ⟨i, hi, hgete⟩ := List.mem_iff_getElem.mp hnd
    have hi2 : i < l.length - 1 := by
      have := hi
      rw [hRlen] at this
      omega
    have hndD : nd = ((delEdges redir n (delIds n l)).eraseIdx n).getD i defGNode := by
      rw [getD_lt _ defGNode i hi]
      exact hgete.symm
    by_cases hin : i < n
    · have hkey := key i hi2 i (Or.inl ⟨hin, rfl⟩)
      have he2 : e ∈ (l.getD i defGNode).edges.mapIdx
          (fun b e => if n < e then e - 1 else if e = n then redir i b else e) := by
        rw [hndD, hkey] at he
        exact he
      obtain ⟨b, hb, hbe⟩ := List.mem_iff_getElem.mp he2
      have hblen : b < (l.getD i defGNode).edges.length := by simpa using hb
      rw [List.getElem_mapIdx] at hbe
      have hXmem : l.getD i defGNode ∈ l := getD_mem_list l defGNode i (by omega)
      have hev := List.getElem_mem hblen
      have heval := hvalid _ hXmem _ hev
      have heself := hself _ hXmem _ hev
      have hXid : (l.getD i defGNode).id = i := hids i (by omega)
      rw [hXid] at heself
      have hred := hredir i (by omega) b hblen
      rw [hXid] at hred
      rw [hndD, hkey]
      show e + 1 < l.length ∧ e ≠ delNewId n ((l.getD i defGNode).id)
      rw [hXid]
      simp only [delNewId]
      by_cases h1 : n < (l.getD i defGNode).edges[b]
      · rw [if_pos h1] at hbe
        subst hbe
        refine ⟨by omega, ?_⟩
        rw [if_neg (by omega)]
        omega
      · by_cases h2 : (l.getD i defGNode).edges[b] = n
        · rw [if_neg h1, if_pos h2] at hbe
          subst hbe
          refine ⟨by omega, ?_⟩
          have hne := hred.2.1
          simp only [delNewId] at hne
          exact hne
        · rw [if_neg h1, if_neg h2] at hbe
          subst hbe
          refine ⟨by omega, ?_⟩
          rw [if_neg (by omega)]
          exact heself
    · have hkey := key i hi2 (i + 1) (Or.inr ⟨by omega, rfl⟩)
      have he2 : e ∈ (l.getD (i + 1) defGNode).edges.mapIdx
          (fun b e => if n < e then e - 1 else if e = n then redir (i + 1) b else e) := by
        rw [hndD, hkey] at he
        exact he
      obtain ⟨b, hb, hbe⟩ := List.mem_iff_getElem.mp he2
      have hblen : b < (l.getD (i + 1) defGNode).edges.length := by simpa using hb
      rw [List.getElem_mapIdx] at hbe
      have hXmem : l.getD (i + 1) defGNode ∈ l := getD_mem_list l defGNode (i + 1) (by omega)
      have hev := List.getElem_mem hblen
      have heval := hvalid _ hXmem _ hev
      have heself := hself _ hXmem _ hev
      have hXid : (l.getD (i + 1) defGNode).id = i + 1 := hids (i + 1) (by omega)
      rw [hXid] at heself
      have hred := hredir (i + 1) (by omega) b hblen
      rw [hXid] at hred
      rw [hndD, hkey]
      show e + 1 < l.length ∧ e ≠ delNewId n ((l.getD (i + 1) defGNode).id)
      rw [hXid]
      simp only [delNewId]
      by_cases h1 : n < (l.getD (i + 1) defGNode).edges[b]
      · rw [if_pos h1] at hbe
        subst hbe
        refine ⟨by omega, ?_⟩
        rw [if_pos (by omega)]
        omega
      · by_cases h2 : (l.getD (i + 1) defGNode).edges[b] = n
        · rw [if_neg h1, if_pos h2] at hbe
          subst hbe
          refine ⟨by omega, ?_⟩
          have hne := hred.2.1
          simp only [delNewId] at hne
          exact hne
        · rw [if_neg h1, if_neg h2] at hbe
          subst hbe
          refine ⟨by omega, ?_⟩
          rw [if_pos (by omega)]
          omega

/-- A single-entry start-edge list is valid when its entry is. -/
lemma start_edges_valid (st : GNode) (len : ℕ) (hlen1 : st.edges.length = 1)
    (hval : st.edges.getD 0 0 < len) : ∀ e ∈ st.edges, e < len := by
  intro e he
  have hs := eq_singleton_of_length_one st.edges 0 hlen1
  rw [hs] at he
  have he2 : e = st.edges.getD 0 0 := by simpa using he
  rw [he2]
  exact hval

/-- C1, amended.  For every network satisfying the claimed preconditions
(contiguous ids, valid self-loop-free edges on the inner nodes, a
single valid start edge, at least 3 inner nodes) and every admissible
oracle — the added processing edge avoids the new node's id, the added
judgment edges point into the old array, and the `changeEdge` draws obey
the rejection-sampling constraints of the source — one call to
`addDelNodes` re-establishes contiguous ids, keeps every inner and start
edge inside `[0, len(innerNodes))`, and leaves no inner node with an
edge equal to its own id.  (The start node's edge may however come to
equal the start node's id `0`, which is why the claim as stated is
refuted by the counterexample.) -/
theorem C1_addDelNodes_amended (net : Network) (o : AddDelDraws) (minF maxF : List ℚ)
    (hids : ∀ i < net.innerNodes.length, (net.innerNodes.getD i defGNode).id = i)
    (hvalid : ∀ nd ∈ net.innerNodes, ∀ e ∈ nd.edges, e < net.innerNodes.length)
    (hself : ∀ nd ∈ net.innerNodes, ∀ e ∈ nd.edges, e ≠ nd.id)
    (hstartlen : net.startNode.edges.length = 1)
    (hstartval : net.startNode.edges.getD 0 0 < net.innerNodes.length)
    (hlen3 : 3 ≤ net.innerNodes.length)
    (heP : o.eP < net.innerNodes.length + 1 ∧ o.eP ≠ net.innerNodes.length)
    (hesJ : ∀ x ∈ o.esJ, x < net.innerNodes.length)
    (hredir : ∀ n < net.innerNodes.length, firstUnused net.innerNodes = some n →
      ∀ a < net.innerNodes.length, ∀ b < (net.innerNodes.getD a defGNode).edges.length,
        o.redir a b + 1 < net.innerNodes.length ∧
        o.redir a b ≠ delNewId ((net.innerNodes.getD n defGNode).id)
          ((net.innerNodes.getD a defGNode).id) ∧
        o.redir a b ≠ n) :
    (∀ i < (addDelNodes net o minF maxF).innerNodes.length,
      ((addDelNodes net o minF maxF).innerNodes.getD i defGNode).id = i) ∧
    (∀ nd ∈ (addDelNodes net o minF maxF).innerNodes, ∀ e ∈ nd.edges,
      e < (addDelNodes net o minF maxF).innerNodes.length ∧ e ≠ nd.id) ∧
    (∀ e ∈ (addDelNodes net o minF maxF).startNode.edges,
      e < (addDelNodes net o minF maxF).innerNodes.length) := by
  obtain ⟨heP1, heP2⟩ := heP
  simp only [addDelNodes, countUsedNodes]
  rcases hA : o.resultAdd with _ | _
  · simp only [Bool.false_eq_true, if_false]
    by_cases hg : 1 <
        net.innerNodes.length - (List.filter (fun nd => nd.used) net.innerNodes).length
    · rw [if_pos hg]
      rcases hFU : firstUnused net.innerNodes with _ | n
      · dsimp only
        exact ⟨hids, fun nd hnd e he => ⟨hvalid nd hnd e he, hself nd hnd e he⟩,
          start_edges_valid net.startNode net.innerNodes.length hstartlen hstartval⟩
      · obtain ⟨hn, hnused, hpre⟩ := firstUnused_spec hFU
        have hn1 : n + 1 < net.innerNodes.length := firstUnused_lt_pred hFU hg
        have ht : (net.innerNodes.getD n defGNode).id = n := hids n hn
        dsimp only
        rw [ht]
        have hred : ∀ a < net.innerNodes.length,
            ∀ b < (net.innerNodes.getD a defGNode).edges.length,
            o.redir a b + 1 < net.innerNodes.length ∧
            o.redir a b ≠ delNewId n ((net.innerNodes.getD a defGNode).id) ∧
            o.redir a b ≠ n := by
          intro a ha b hb
          have h := hredir n hn hFU a ha b hb
          rw [ht] at h
          exact h
        obtain ⟨hRlen, hRids, hRedges⟩ :=
          delete_invariants net.innerNodes o.redir n hn1 hids hvalid hself hred
        refine ⟨hRids, ?_, ?_⟩
        · intro nd hnd e he
          obtain ⟨h1, h2⟩ := hRedges nd hnd e he
          refine ⟨?_, h2⟩
          rw [hRlen]
          omega
        · by_cases hs : n < net.startNode.edges.getD 0 0
          · rw [if_pos hs]
            intro e he
            have he2 : e ∈ net.startNode.edges.set 0
                (net.startNode.edges.getD 0 0 - 1) := he
            have hs1 := eq_singleton_of_length_one net.startNode.edges 0 hstartlen
            rw [hs1] at he2
            have he3 : e = net.startNode.edges.getD 0 0 - 1 := by simpa using he2
            rw [hRlen]
            omega
          · rw [if_neg hs]
            intro e he
            have he3 : e = net.startNode.edges.getD 0 0 := by
              have hs1 := eq_singleton_of_length_one net.startNode.edges 0 hstartlen
              rw [hs1] at he
              simpa using he
            rw [hRlen]
            omega
    · rw [if_neg hg]
      dsimp only
      exact ⟨hids, fun nd hnd e he => ⟨hvalid nd hnd e he, hself nd hnd e he⟩,
        start_edges_valid net.startNode net.innerNodes.length hstartlen hstartval⟩
  · rw [if_pos rfl]
    by_cases hga : net.innerNodes.length ≤
        (List.filter (fun nd => nd.used) net.innerNodes).length
    · rw [if_pos hga]
      rcases hP : o.resultP with _ | _
      · simp only [Bool.false_eq_true, if_false]
        rcases hF : net.fractalJudgment with _ | _
        · simp only [Bool.false_eq_true, if_false]
          obtain ⟨h1, h2⟩ := append_node_invariants net.innerNodes
            { defGNode with
                id := net.innerNodes.length
                ntype := NType.J
                f := o.fNew
                edges := o.esJ
                boundaries := setEdgesBoundaries o.esJ.length (minF.getD o.fNew 0)
                  (maxF.getD o.fNew 0) [] }
            hids hvalid hself rfl hesJ
          refine ⟨h1, h2, ?_⟩
          intro e he
          have hv := start_edges_valid net.startNode net.innerNodes.length
            hstartlen hstartval e he
          simp only [List.length_append, List.length_cons, List.length_nil]
          omega
        · rw [if_pos rfl]
          dsimp only
          obtain ⟨h1, h2⟩ := append_node_invariants net.innerNodes
            { defGNode with
                id := net.innerNodes.length
                ntype := NType.J
                f := o.fNew
                edges := o.esJ
                boundaries := setEdgesBoundaries o.esJ.length (minF.getD o.fNew 0)
                  (maxF.getD o.fNew 0)
                  (fractalLengths o.kd.2 (sortAndDistance (randomParameterCuts o.cuts)))
                productionRuleParameter := randomParameterCuts o.cuts
                k_d := o.kd }
            hids hvalid hself rfl hesJ
          refine ⟨h1, h2, ?_⟩
          intro e he
          have hv := start_edges_valid net.startNode net.innerNodes.length
            hstartlen hstartval e he
          simp only [List.length_append, List.length_cons, List.length_nil]
          omega
      · rw [if_pos rfl]
        dsimp only
        obtain ⟨h1, h2⟩ := append_node_invariants net.innerNodes
          { defGNode with
              id := net.innerNodes.length
              ntype := NType.P
              f := o.fNew
              edges := [o.eP] }
          hids hvalid hself rfl
          (by
            intro e he
            have he2 : e = o.eP := by simpa using he
            omega)
        refine ⟨h1, h2, ?_⟩
        intro e he
        have hv := start_edges_valid net.startNode net.innerNodes.length
          hstartlen hstartval e he
        simp only [List.length_append, List.length_cons, List.length_nil]
        omega
    · rw [if_neg hga]
      dsimp only
      exact ⟨hids, fun nd hnd e he => ⟨hvalid nd hnd e he, hself nd hnd e he⟩,
        start_edges_valid net.startNode net.innerNodes.length hstartlen hstartval⟩

/-- C1 witness: the amended theorem applied to the concrete four-node
network and deletion oracle, with every hypothesis checked by
computation. -/
theorem C1_addDelNodes_amended_witness :
    (3 ≤ cDelNet.innerNodes.length) ∧
    ((∀ i < (addDelNodes cDelNet cDelOracle [] []).innerNodes.length,
      ((addDelNodes cDelNet cDelOracle [] []).innerNodes.getD i defGNode).id = i) ∧
    (∀ nd ∈ (addDelNodes cDelNet cDelOracle [] []).innerNodes, ∀ e ∈ nd.edges,
      e < (addDelNodes cDelNet cDelOracle [] []).innerNodes.length ∧ e ≠ nd.id) ∧
    (∀ e ∈ (addDelNodes cDelNet cDelOracle [] []).startNode.edges,
      e < (addDelNodes cDelNet cDelOracle [] []).innerNodes.length)) :=
  ⟨by decide,
    C1_addDelNodes_amended cDelNet cDelOracle [] [] (by decide) (by decide) (by decide)
      (by decide) (by decide) (by decide) (by decide) (by decide)
      (by
        intro n hn hfu
        have h0 : firstUnused cDelNet.innerNodes = some 0 := by decide
        rw [h0] at hfu
        have hn0 : n = 0 := (Option.some.inj hfu).symm
        subst hn0
        decide)⟩

end Fracnetics
